import Mathlib

/-!
# ASCII cube rasterizer (`cube.cpp`): embedding and verified properties

The C++ program is embedded shallowly.

* `float` values are modelled by an arbitrary linearly ordered field `α` with a floor
  function (exact arithmetic; `ℚ` gives an executable instance, `ℝ` the instance the
  trigonometric claims are stated in).  Infinities and NaN are not modelled.
* Where rounding bears on a statement, lines 55, 80-84 and 108 are also given in
  binary32 (`f32`, `edgeFunction32`, `weights32`, `interpDepth32`, `projScale32`): every
  operation rounded to nearest, ties to even, on rational numbers.
* `int` values are modelled by `Int` (the program's coordinates stay far from overflow).
* `std::vector<std::vector<T>>` is a `List (List T)`; an index outside the vector makes
  the embedded operation return `none`.
* The library functions `cos`, `sin` and `tan` are parameters of the functions calling them.
-/

namespace Cube

/-! ## Constants (cube.cpp, lines 12-18 and 26) -/

/-- Constant `const int WIDTH = 80;`. -/
def WIDTH : Int := 80

/-- Constant `const int HEIGHT = 40;`. -/
def HEIGHT : Int := 40

section Model

variable {α : Type} [LinearOrderedField α] [FloorRing α]

/-- Constant `const float CUBE_SIZE = 12.0f;`. -/
def CUBE_SIZE : α := 12

/-- Constant `const float CAMERA_DISTANCE = 4.0f;`. -/
def CAMERA_DISTANCE : α := 4

/-- Constant `const float FOV = 90.0f;`. -/
def FOV : α := 90

/-- Library `std::max(a, b)`, that is `(a < b) ? b : a`. -/
def stdMax {T : Type} [LinearOrder T] (a b : T) : T := if a < b then b else a

/-- Library `std::min(a, b)`, that is `(b < a) ? b : a`. -/
def stdMin {T : Type} [LinearOrder T] (a b : T) : T := if b < a then b else a

/-- The template `clamp(min, max, value)` of lines 20-24, parameters in declared order:
`return std::min(std::max(value, min), max);`. -/
def clamp {T : Type} [LinearOrder T] (min max value : T) : T :=
  stdMin (stdMax value min) max

/-- Array `const char SHADES[] = ".:-=+*#%@";`: nine glyphs and the terminating NUL, so that
`sizeof(SHADES)` is the length of this list, 10. -/
def SHADES : List Char :=
  ['.', ':', '-', '=', '+', '*', '#', '%', '@', Char.ofNat 0]

/-- Structure `struct Point3D { float x, y, z; };` -/
structure Point3D (α : Type) where
  x : α
  y : α
  z : α

/-- Structure `struct Point2D { int x, y; float depth; };` -/
structure Point2D (α : Type) where
  x : Int
  y : Int
  depth : α

/-- Vector `std::vector<Point3D> cube_vertices` (lines 39-43). -/
def cube_vertices : List (Point3D α) :=
  [⟨-1, -1, -1⟩, ⟨1, -1, -1⟩, ⟨1, 1, -1⟩, ⟨-1, 1, -1⟩,
   ⟨-1, -1, 1⟩, ⟨1, -1, 1⟩, ⟨1, 1, 1⟩, ⟨-1, 1, 1⟩]

/-- Vector `std::vector<std::vector<int>> cube_faces` (lines 45-52). -/
def cube_faces : List (List Int) :=
  [[0, 1, 2, 3], [4, 5, 6, 7], [0, 1, 5, 4], [2, 3, 7, 6], [1, 2, 6, 5], [0, 3, 7, 4]]

/-! ## Vector access -/

/-- Indexing `v[i]` with an `int` index: `none` when the index is outside the vector. -/
def idx? {β : Type} (v : List β) (i : Int) : Option β :=
  if 0 ≤ i then v[i.toNat]? else none

/-- Read of `g[y][x]` in a vector of vectors. -/
def at2? {β : Type} (g : List (List β)) (y x : Int) : Option β :=
  (idx? g y).bind fun row => idx? row x

/-- Assignment `g[y][x] = v` in a vector of vectors: `none` when an index is outside. -/
def set2? {β : Type} (g : List (List β)) (y x : Int) (v : β) : Option (List (List β)) :=
  (idx? g y).bind fun row =>
    (idx? row x).map fun _ => g.set y.toNat (row.set x.toNat v)

/-! ## Rasterizer (lines 54-100) -/

/-- The integer expression of `edgeFunction`:
`(P.x - A.x) * (B.y - A.y) - (P.y - A.y) * (B.x - A.x)`. -/
def edgeInt (A B P : Point2D α) : Int :=
  (P.x - A.x) * (B.y - A.y) - (P.y - A.y) * (B.x - A.x)

/-- Function `float edgeFunction(A, B, P)`: the integer expression converted to `float`,
in exact arithmetic (the conversion is exact below `2 ^ 24` in magnitude; `edgeFunction32`
is its binary32 value). -/
def edgeFunction (A B P : Point2D α) : α := ((edgeInt A B P : Int) : α)

/-- Conversion `static_cast<int>(q)`: truncation toward zero. -/
def toInt (q : α) : Int := if 0 ≤ q then ⌊q⌋ else ⌈q⌉

/-- Lines 90-91: `int shadeIdx = static_cast<int>((depth - CAMERA_DISTANCE) * 2);`
`shadeIdx = clamp(shadeIdx, 0, (int)sizeof(SHADES) - 2);` with the arguments in the
order of the call. -/
def shadeIdx (depth : α) : Int :=
  let shadeIdx : Int := toInt ((depth - CAMERA_DISTANCE) * 2)
  clamp shadeIdx 0 ((SHADES.length : Int) - 2)

/-- Line 92: `char c = SHADES[shadeIdx];`. -/
def shadeChar (depth : α) : Option Char := idx? SHADES (shadeIdx depth)

/-- The frame buffer `screen` and the depth buffer `zbuffer` that `drawTriangle`
receives by reference. -/
structure Buffers (α : Type) where
  screen : List (List Char)
  zbuffer : List (List α)

/-- The pixel `Point2D P{ x, y };` of line 71 (its depth is zero-initialised). -/
def pixelPoint (x y : Int) : Point2D α := ⟨x, y, 0⟩

/-- The inside test of lines 73-78 at pixel `(x, y)`. -/
def insideTest (p0 p1 p2 : Point2D α) (x y : Int) : Prop :=
  let P : Point2D α := pixelPoint x y
  let w0 : α := edgeFunction p1 p2 P
  let w1 : α := edgeFunction p2 p0 P
  let w2 : α := edgeFunction p0 p1 P
  (w0 ≥ 0 ∧ w1 ≥ 0 ∧ w2 ≥ 0) ∨ (w0 ≤ 0 ∧ w1 ≤ 0 ∧ w2 ≤ 0)

instance (p0 p1 p2 : Point2D α) (x y : Int) : Decidable (insideTest p0 p1 p2 x y) := by
  unfold insideTest
  infer_instance

/-- The interpolated depth of lines 80-84 at pixel `(x, y)`, in exact arithmetic; `area`
is the value of line 67.  The machine rounds each operation: `interpDepth32` is the
binary32 value.  For `area = 0` the quotient of the field (zero) stands where the program
gets an infinity or a NaN: degenerate triangles are outside the exact model. -/
def interpDepth (p0 p1 p2 : Point2D α) (x y : Int) : α :=
  let area : α := edgeFunction p0 p1 p2
  let P : Point2D α := pixelPoint x y
  let w0 : α := edgeFunction p1 p2 P
  let w1 : α := edgeFunction p2 p0 P
  let w2 : α := edgeFunction p0 p1 P
  let alpha := w0 / area
  let beta := w1 / area
  let gamma := w2 / area
  alpha * p0.depth + beta * p1.depth + gamma * p2.depth

/-- The body of the inner loop of `drawTriangle` (lines 71-97) at pixel `(x, y)`. -/
def drawPixel (p0 p1 p2 : Point2D α) (y x : Int) (b : Buffers α) : Option (Buffers α) :=
  if insideTest p0 p1 p2 x y then
    let depth := interpDepth p0 p1 p2 x y
    if x ≥ 0 ∧ x < WIDTH ∧ y ≥ 0 ∧ y < HEIGHT then
      (at2? b.zbuffer y x).bind fun old =>
        if depth < old then
          (set2? b.zbuffer y x depth).bind fun zbuffer =>
            (shadeChar depth).bind fun c =>
              (set2? b.screen y x c).map fun screen => ⟨screen, zbuffer⟩
        else some b
    else some b
  else some b

/-- The values `lo, lo + 1, ..., hi` taken by a loop `for (int i = lo; i <= hi; ++i)`. -/
def intRange (lo hi : Int) : List Int :=
  (List.range (hi + 1 - lo).toNat).map fun (i : Nat) => lo + (i : Int)

/-- The function `drawTriangle(screen, zbuffer, p0, p1, p2)` of lines 58-100. -/
def drawTriangle (b : Buffers α) (p0 p1 p2 : Point2D α) : Option (Buffers α) :=
  let minX := min (min p0.x p1.x) p2.x
  let maxX := max (max p0.x p1.x) p2.x
  let minY := min (min p0.y p1.y) p2.y
  let maxY := max (max p0.y p1.y) p2.y
  (intRange minY maxY).foldlM
    (fun b y => (intRange minX maxX).foldlM (fun b x => drawPixel p0 p1 p2 y x b) b) b

/-! ## Projection and rotation (lines 102-132) -/

/-- Line 105: `float fovScale = 1.0f / tan(FOV * 0.5f * 3.14159f / 180.0f);`. -/
def fovScale (tan : α → α) : α := 1 / tan (FOV * (1 / 2) * (314159 / 100000) / 180)

/-- Line 107: `float z = p.z + CAMERA_DISTANCE;`. -/
def cameraZ (p : Point3D α) : α := p.z + CAMERA_DISTANCE

/-- Line 108: `float scale = fovScale / z * CUBE_SIZE;` as a function of `fovScale`
and `z`, in exact arithmetic (`projScale32` is the binary32 value). -/
def projScale (fovScale z : α) : α := fovScale / z * CUBE_SIZE

/-- The function `project` of lines 102-116. -/
def project (tan : α → α) (p : Point3D α) : Point2D α :=
  let aspect : α := ((WIDTH : Int) : α) / ((HEIGHT : Int) : α)
  let fovScale : α := fovScale tan
  let z : α := cameraZ p
  let scale : α := projScale fovScale z
  { x := toInt (((WIDTH / 2 : Int) : α) + p.x * scale * aspect)
    y := toInt (((HEIGHT / 2 : Int) : α) - p.y * scale)
    depth := z }

/-- The function `rotateX` of lines 118-124, returning the updated point. -/
def rotateX (cos sin : α → α) (p : Point3D α) (angle : α) : Point3D α :=
  let y := p.y * cos angle - p.z * sin angle
  let z := p.y * sin angle + p.z * cos angle
  { p with y := y, z := z }

/-- The function `rotateY` of lines 126-132, returning the updated point. -/
def rotateY (cos sin : α → α) (p : Point3D α) (a : α) : Point3D α :=
  let x := p.x * cos a + p.z * sin a
  let z := -p.x * sin a + p.z * cos a
  { p with x := x, z := z }

/-! ## One frame (lines 148-172) -/

/-- A row of `n` copies of `v`: `std::vector<T>(n, v)`. -/
def filled {β : Type} (n : Int) (v : β) : List β := List.replicate n.toNat v

/-- The literal `1e9` of line 149, the depth every cell of a fresh depth buffer holds. -/
def farDepth : α := 1000000000

/-- Lines 148-149: the fresh buffers of a frame, blanks and the depth `1e9`. -/
def freshBuffers : Buffers α :=
  { screen := filled HEIGHT (filled WIDTH ' ')
    zbuffer := filled HEIGHT (filled WIDTH farDepth) }

/-- Lines 151-162: the vertices rotated about X then Y and projected. -/
def projectedVertices (cos sin tan : α → α) (angleX angleY : α) : List (Point2D α) :=
  (cube_vertices.map fun v => rotateY cos sin (rotateX cos sin v angleX) angleY).map
    (project tan)

/-- Lines 165-171: one face `f`, the two triangles of its fan. -/
def drawFace (projected : List (Point2D α)) (b : Buffers α) (f : List Int) :
    Option (Buffers α) :=
  (idx? f 0).bind fun i0 => (idx? projected i0).bind fun p0 =>
  (idx? f 1).bind fun i1 => (idx? projected i1).bind fun p1 =>
  (idx? f 2).bind fun i2 => (idx? projected i2).bind fun p2 =>
  (idx? f 3).bind fun i3 => (idx? projected i3).bind fun p3 =>
  (drawTriangle b p0 p1 p2).bind fun b => drawTriangle b p0 p2 p3

/-- Lines 148-172: the buffers of one frame, all six faces drawn. -/
def renderFrame (cos sin tan : α → α) (angleX angleY : α) : Option (Buffers α) :=
  cube_faces.foldlM (drawFace (projectedVertices cos sin tan angleX angleY)) freshBuffers

/-! ## Vocabulary of the statements -/

/-- A grid of `HEIGHT` rows of `WIDTH` cells. -/
def GridWF {β : Type} (g : List (List β)) : Prop :=
  g.length = HEIGHT.toNat ∧ ∀ r ∈ g, r.length = WIDTH.toNat

/-- Both buffers have the dimensions of the screen. -/
def Buffers.WF (b : Buffers α) : Prop := GridWF b.screen ∧ GridWF b.zbuffer

/-- The bounds check of line 86. -/
def onScreen (y x : Int) : Prop := x ≥ 0 ∧ x < WIDTH ∧ y ≥ 0 ∧ y < HEIGHT

instance (y x : Int) : Decidable (onScreen y x) := by
  unfold onScreen
  infer_instance

/-- The depth stored at `zbuffer[y][x]` (zero outside the buffer). -/
def zAt (b : Buffers α) (y x : Int) : α := (at2? b.zbuffer y x).getD 0

/-- The character stored at `screen[y][x]` (blank outside the buffer). -/
def chAt (b : Buffers α) (y x : Int) : Char := (at2? b.screen y x).getD ' '

/-- The pair of values a cell holds: depth and character. -/
def cellAt (b : Buffers α) (k : Int × Int) : α × Char := (zAt b k.1 k.2, chAt b k.1 k.2)

/-- What lines 73-95 make of the cell `(y, x)` holding `v`: the new depth and the first
glyph of the ramp when the pixel passes the inside test and the depth test (the glyph of
line 92 is the first of the ramp at every depth; `drawPixel_spec` relates `drawPixel` to
this function). -/
def newCell (p0 p1 p2 : Point2D α) (k : Int × Int) (v : α × Char) : α × Char :=
  if insideTest p0 p1 p2 k.2 k.1 ∧ interpDepth p0 p1 p2 k.2 k.1 < v.1 then
    (interpDepth p0 p1 p2 k.2 k.1, '.')
  else v

/-- The bounding box of lines 62-65, as a predicate on the cell `(y, x)`. -/
def inBox (p0 p1 p2 : Point2D α) (k : Int × Int) : Prop :=
  (min (min p0.y p1.y) p2.y ≤ k.1 ∧ k.1 ≤ max (max p0.y p1.y) p2.y) ∧
  (min (min p0.x p1.x) p2.x ≤ k.2 ∧ k.2 ≤ max (max p0.x p1.x) p2.x)

/-- A triangle: the three points passed to `drawTriangle`. -/
abbrev Triangle (α : Type) : Type := Point2D α × Point2D α × Point2D α

/-- The triangle is not degenerate: `area` of line 67 is not zero. -/
def nonDegenerate (t : Triangle α) : Prop := edgeInt t.1 t.2.1 t.2.2 ≠ 0

instance (t : Triangle α) : Decidable (nonDegenerate t) := by
  unfold nonDegenerate
  infer_instance

/-- Successive calls of `drawTriangle` on the same buffers. -/
def drawTriangles (b : Buffers α) (ts : List (Triangle α)) : Option (Buffers α) :=
  ts.foldlM (fun b t => drawTriangle b t.1 t.2.1 t.2.2) b

/-- The depths `drawTriangle` interpolates at pixel `(x, y)` for the triangles of `ts`
that pass the inside test there. -/
def coveringDepths (ts : List (Triangle α)) (y x : Int) : List α :=
  (ts.filter fun t => decide (insideTest t.1 t.2.1 t.2.2 x y)).map
    fun t => interpDepth t.1 t.2.1 t.2.2 x y

/-- The squared Euclidean norm of a point. -/
def normSq (p : Point3D α) : α := p.x ^ 2 + p.y ^ 2 + p.z ^ 2

/-- The shade index in the words of the specification (section 4.4, step 6): the floor
of `(depth - CAMERA_DISTANCE) * 2` clamped into `[0, 7]`, with `clamp` taking its
arguments in the declared order `(min, max, value)`. -/
def specShadeIdx (depth : α) : Int := clamp 0 7 ⌊(depth - CAMERA_DISTANCE) * 2⌋

/-- The nearest integer to a third of `s`, halves rounded up. -/
def roundedThird (s : Int) : Int := (2 * s + 3) / 6

/-- The centroid pixel in the words of the specification (section 8): the average of the
three vertices, each coordinate rounded to an integer; the pair is `(x, y)`. -/
def centroidPixel (p0 p1 p2 : Point2D α) : Int × Int :=
  (roundedThird (p0.x + p1.x + p2.x), roundedThird (p0.y + p1.y + p2.y))

/-- A rational stand-in for `cos` in concrete instances: its Taylor polynomial of
degree 2. -/
def cosApprox (a : ℚ) : ℚ := 1 - a ^ 2 / 2

/-- A rational stand-in for `sin` in concrete instances: its Taylor polynomial of
degree 3. -/
def sinApprox (a : ℚ) : ℚ := a - a ^ 3 / 6

/-- A rational stand-in for `tan` in concrete instances: its Taylor polynomial of
degree 5. -/
def tanApprox (a : ℚ) : ℚ := a + a ^ 3 / 3 + 2 * a ^ 5 / 15

/-- The first triangle of the front face of the unrotated cube, as projected. -/
def frontTriangle : Triangle ℚ := (⟨35, 22, 5⟩, ⟨44, 22, 5⟩, ⟨44, 17, 5⟩)

/-- A triangle covering the pixel `(0, 0)` whose three vertices lie beyond the far depth
`1e9`, at depth `2e9`. -/
def farTriangle : Triangle ℚ :=
  (⟨0, 0, 2000000000⟩, ⟨1, 0, 2000000000⟩, ⟨0, 1, 2000000000⟩)

/-- A thin triangle of area 1 (twice the area) between `(0, 0)`, `(1, 0)` and
`(100, 1)`. -/
def thinTriangle : Triangle ℚ := (⟨0, 0, 5⟩, ⟨1, 0, 5⟩, ⟨100, 1, 5⟩)

/-- A triangle of vertex depths 3, 5 and 7 between `(0, 0)`, `(4, 0)` and `(0, 4)`. -/
def slopedTriangle : Triangle ℚ := (⟨0, 0, 3⟩, ⟨4, 0, 5⟩, ⟨0, 4, 7⟩)

/-- A triangle reaching beyond the screen on every side. -/
def wideTriangle : Triangle ℚ := (⟨-5, -5, 5⟩, ⟨100, 10, 5⟩, ⟨20, 60, 5⟩)

/-- The two triangles `q` and `p` are rasterized alike: the same pixels pass the inside
test, the interpolated depth is the same at every pixel, and `drawTriangle` leaves the
same buffers (or fails alike) from any buffers. -/
def sameRaster (q p : Triangle α) : Prop :=
  (∀ x y : Int, insideTest q.1 q.2.1 q.2.2 x y ↔ insideTest p.1 p.2.1 p.2.2 x y) ∧
  (∀ x y : Int, interpDepth q.1 q.2.1 q.2.2 x y = interpDepth p.1 p.2.1 p.2.2 x y) ∧
  ∀ b : Buffers α, drawTriangle b q.1 q.2.1 q.2.2 = drawTriangle b p.1 p.2.1 p.2.2

/-- The two triangles `q` and `p` cover the same pixels: they have the same bounding
box, the same pixels pass the inside test, and the interpolated depth, in the exact
arithmetic of `interpDepth`, is the same at every pixel. -/
def sameCoverage (q p : Triangle α) : Prop :=
  (min (min q.1.x q.2.1.x) q.2.2.x = min (min p.1.x p.2.1.x) p.2.2.x ∧
    max (max q.1.x q.2.1.x) q.2.2.x = max (max p.1.x p.2.1.x) p.2.2.x ∧
    min (min q.1.y q.2.1.y) q.2.2.y = min (min p.1.y p.2.1.y) p.2.2.y ∧
    max (max q.1.y q.2.1.y) q.2.2.y = max (max p.1.y p.2.1.y) p.2.2.y) ∧
  (∀ x y : Int, insideTest q.1 q.2.1 q.2.2 x y ↔ insideTest p.1 p.2.1 p.2.2 x y) ∧
  (∀ x y : Int, interpDepth q.1 q.2.1 q.2.2 x y = interpDepth p.1 p.2.1 p.2.2 x y)

end Model

/-! ## The arithmetic of lines 55, 80-84 and 108 in binary32

The definitions above compute in an exact field.  Those below round every operation to
binary32, on rational numbers: they give the values the machine computes, as long as no
operation overflows and no divisor is zero. -/

/-- The auxiliary recursion of `natLog2`, on a bound `fuel` of the number of halvings. -/
def log2Fuel : Nat → Nat → Nat
  | 0, _ => 0
  | fuel + 1, n => if n < 2 then 0 else log2Fuel fuel (n / 2) + 1

/-- The integer part of the binary logarithm of `n` (zero for `n = 0`). -/
def natLog2 (n : Nat) : Nat := log2Fuel n n

/-- The power `2 ^ e` for an integer exponent. -/
def pow2 (e : Int) : ℚ :=
  if 0 ≤ e then ((2 ^ e.toNat : Nat) : ℚ) else 1 / ((2 ^ (-e).toNat : Nat) : ℚ)

/-- The binary exponent of `q ≠ 0`: the integer `e` with `2 ^ e ≤ |q| < 2 ^ (e + 1)`. -/
def expo (q : ℚ) : Int :=
  let e0 : Int := (natLog2 q.num.natAbs : Int) - (natLog2 q.den : Int)
  if pow2 e0 ≤ |q| then e0 else e0 - 1

/-- Rounding to the nearest integer, a tie going to the even one. -/
def roundEven (x : ℚ) : Int :=
  if x - ⌊x⌋ < 1 / 2 then ⌊x⌋
  else if 1 / 2 < x - ⌊x⌋ then ⌊x⌋ + 1
  else if ⌊x⌋ % 2 = 0 then ⌊x⌋ else ⌊x⌋ + 1

/-- The exponent of the unit in the last place of the binary32 numbers around `q`:
24 significant bits, the exponent not below that of the subnormal numbers. -/
def ulpExp (q : ℚ) : Int := max (expo q) (-126) - 23

/-- Rounding of the exact value `q` to binary32 (IEEE 754 single precision,
round-to-nearest, ties to even), as a rational number.  The exponent is not bounded
above: a value beyond the largest binary32 number, which the machine rounds to an
infinity, is rounded here as if the format went on. -/
def f32 (q : ℚ) : ℚ := (roundEven (q / pow2 (ulpExp q)) : ℚ) * pow2 (ulpExp q)

/-- Line 55 in binary32: the value of the `int` expression converted to `float`. -/
def edgeFunction32 {α : Type} (A B P : Point2D α) : ℚ := f32 (edgeInt A B P)

/-- Lines 67 and 73-82 in binary32: the weights `alpha`, `beta` and `gamma` at the pixel
`(x, y)`, each a rounded quotient of two rounded edge values (`area ≠ 0`). -/
def weights32 (p0 p1 p2 : Point2D ℚ) (x y : Int) : ℚ × ℚ × ℚ :=
  let area : ℚ := edgeFunction32 p0 p1 p2
  let P : Point2D ℚ := pixelPoint x y
  let w0 : ℚ := edgeFunction32 p1 p2 P
  let w1 : ℚ := edgeFunction32 p2 p0 P
  let w2 : ℚ := edgeFunction32 p0 p1 P
  (f32 (w0 / area), f32 (w1 / area), f32 (w2 / area))

/-- Line 84 in binary32: `alpha * p0.depth + beta * p1.depth + gamma * p2.depth`, the
products and the sums rounded one by one, from left to right. -/
def interpDepth32 (p0 p1 p2 : Point2D ℚ) (x y : Int) : ℚ :=
  let alpha : ℚ := (weights32 p0 p1 p2 x y).1
  let beta : ℚ := (weights32 p0 p1 p2 x y).2.1
  let gamma : ℚ := (weights32 p0 p1 p2 x y).2.2
  f32 (f32 (f32 (alpha * p0.depth) + f32 (beta * p1.depth)) + f32 (gamma * p2.depth))

/-- Line 108 in binary32: `fovScale / z * CUBE_SIZE`, the quotient rounded, then the
product (`z ≠ 0`). -/
def projScale32 (fovScale z : ℚ) : ℚ := f32 (f32 (fovScale / z) * CUBE_SIZE)

/-- The second triangle of the front face of the unrotated cube, as projected. -/
def frontTriangle2 : Triangle ℚ := (⟨35, 22, 5⟩, ⟨44, 17, 5⟩, ⟨35, 17, 5⟩)

/-- A triangle of area `2 ^ 24 + 8193`, an integer that is not a binary32 number. -/
def hugeTriangle : Triangle ℚ := (⟨0, 0, 5⟩, ⟨1, 0, 5⟩, ⟨0, -16785409, 5⟩)

/-- The binary32 value of `fovScale` at line 105, `1 + 11 / 2 ^ 23`, about 1.0000013. -/
def fovScale32 : ℚ := 8388619 / 8388608

/-- The binary32 number after 3, `3 + 2 ^ (-22)`, about 3.00000024. -/
def depthA : ℚ := 12582913 / 4194304

/-- The binary32 number after `depthA`, `3 + 2 ^ (-21)`, about 3.00000048. -/
def depthB : ℚ := 6291457 / 2097152

/-! ## Lemmas on the buffers and on `drawTriangle` -/

section Lemmas

set_option linter.unusedSectionVars false

variable {α : Type} [LinearOrderedField α] [FloorRing α]

theorem shadeIdx_eq_zero (depth : α) : shadeIdx depth = 0 := by
  unfold shadeIdx clamp stdMin stdMax
  have h : ((SHADES.length : Int) - 2) = 8 := by decide
  rw [h]
  simp only []
  split_ifs <;> omega

theorem shadeChar_eq (depth : α) : shadeChar depth = some '.' := by
  unfold shadeChar
  rw [shadeIdx_eq_zero]
  rfl

theorem idx?_some_of_lt {β : Type} (v : List β) (i : Int) (h0 : 0 ≤ i)
    (h1 : i.toNat < v.length) : ∃ a, a ∈ v ∧ idx? v i = some a := by
  refine ⟨v.get ⟨i.toNat, h1⟩, List.get_mem v _ _, ?_⟩
  unfold idx?
  rw [if_pos h0]
  exact List.getElem?_eq_getElem h1

theorem idx?_set {β : Type} (l : List β) (i j : Int) (v : β) (hj : 0 ≤ j)
    (hlt : j.toNat < l.length) :
    idx? (l.set j.toNat v) i = if i = j then some v else idx? l i := by
  unfold idx?
  by_cases hi : 0 ≤ i
  · rw [if_pos hi, if_pos hi, List.getElem?_set]
    by_cases hij : i = j
    · subst hij
      simp [hlt]
    · have : j.toNat ≠ i.toNat := by omega
      simp [this, hij]
  · have : i ≠ j := by omega
    simp [hi, this]

theorem set2?_spec {β : Type} (g : List (List β)) (y x : Int) (v : β) (hg : GridWF g)
    (h : onScreen y x) :
    ∃ g', set2? g y x v = some g' ∧ GridWF g' ∧
      ∀ y' x', at2? g' y' x' = if y' = y ∧ x' = x then some v else at2? g y' x' := by
  obtain ⟨hx0, hx1, hy0, hy1⟩ := h
  obtain ⟨hlen, hrows⟩ := hg
  have hW : WIDTH.toNat = 80 := by decide
  have hH : HEIGHT.toNat = 40 := by decide
  have hWi : WIDTH = 80 := rfl
  have hHi : HEIGHT = 40 := rfl
  have hy : y.toNat < g.length := by omega
  obtain ⟨row, hmem, hrow⟩ := idx?_some_of_lt g y hy0 hy
  have hrl : row.length = WIDTH.toNat := hrows row hmem
  have hx : x.toNat < row.length := by omega
  obtain ⟨c, -, hcell⟩ := idx?_some_of_lt row x hx0 hx
  refine ⟨g.set y.toNat (row.set x.toNat v), ?_, ⟨?_, ?_⟩, ?_⟩
  · simp [set2?, hrow, hcell]
  · simpa using hlen
  · intro r hr
    rcases List.mem_or_eq_of_mem_set hr with h1 | h1
    · exact hrows r h1
    · rw [h1]; simpa using hrl
  · intro y' x'
    unfold at2?
    rw [idx?_set g y' y _ hy0 hy]
    by_cases hyy : y' = y
    · subst hyy
      simp only [if_true, Option.some_bind, true_and]
      rw [idx?_set row x' x v hx0 hx, hrow]
      simp
    · simp [hyy]

theorem at2?_some_of_wf {β : Type} (g : List (List β)) (y x : Int) (hg : GridWF g)
    (h : onScreen y x) : ∃ v, at2? g y x = some v := by
  obtain ⟨hx0, hx1, hy0, hy1⟩ := h
  obtain ⟨hlen, hrows⟩ := hg
  have hW : WIDTH.toNat = 80 := by decide
  have hH : HEIGHT.toNat = 40 := by decide
  have hWi : WIDTH = 80 := rfl
  have hHi : HEIGHT = 40 := rfl
  have hy : y.toNat < g.length := by omega
  obtain ⟨row, hmem, hrow⟩ := idx?_some_of_lt g y hy0 hy
  have hrl : row.length = WIDTH.toNat := hrows row hmem
  have hx : x.toNat < row.length := by omega
  obtain ⟨c, -, hcell⟩ := idx?_some_of_lt row x hx0 hx
  exact ⟨c, by simp [at2?, hrow, hcell]⟩

theorem newCell_idem (p0 p1 p2 : Point2D α) (k : Int × Int) (v : α × Char) :
    newCell p0 p1 p2 k (newCell p0 p1 p2 k v) = newCell p0 p1 p2 k v := by
  unfold newCell
  by_cases h : insideTest p0 p1 p2 k.2 k.1 ∧ interpDepth p0 p1 p2 k.2 k.1 < v.1
  · rw [if_pos h]
    simp
  · rw [if_neg h, if_neg h]

theorem drawPixel_spec (p0 p1 p2 : Point2D α) (y x : Int) (b : Buffers α) (hb : b.WF) :
    ∃ b', drawPixel p0 p1 p2 y x b = some b' ∧ b'.WF ∧
      ∀ k : Int × Int, onScreen k.1 k.2 →
        (k = (y, x) → cellAt b' k = newCell p0 p1 p2 k (cellAt b k)) ∧
        (k ≠ (y, x) → cellAt b' k = cellAt b k) := by
  unfold drawPixel
  by_cases hin : insideTest p0 p1 p2 x y
  swap
  · rw [if_neg hin]
    refine ⟨b, rfl, hb, fun k _ => ⟨?_, fun _ => rfl⟩⟩
    rintro rfl
    simp [newCell, hin]
  rw [if_pos hin]
  by_cases hs : x ≥ 0 ∧ x < WIDTH ∧ y ≥ 0 ∧ y < HEIGHT
  swap
  · simp only [if_neg hs]
    refine ⟨b, rfl, hb, fun k hk => ⟨?_, fun _ => rfl⟩⟩
    rintro rfl
    exact absurd hk hs
  simp only [if_pos hs]
  obtain ⟨old, hold⟩ := at2?_some_of_wf b.zbuffer y x hb.2 hs
  rw [hold, Option.some_bind]
  by_cases hd : interpDepth p0 p1 p2 x y < old
  swap
  · rw [if_neg hd]
    refine ⟨b, rfl, hb, fun k _ => ⟨?_, fun _ => rfl⟩⟩
    rintro rfl
    simp [newCell, cellAt, zAt, hold, hd]
  rw [if_pos hd]
  obtain ⟨z', hz', hzwf, hzat⟩ := set2?_spec b.zbuffer y x (interpDepth p0 p1 p2 x y) hb.2 hs
  obtain ⟨s', hs', hswf, hsat⟩ := set2?_spec b.screen y x '.' hb.1 hs
  rw [hz', Option.some_bind, shadeChar_eq, Option.some_bind, hs', Option.map_some']
  refine ⟨_, rfl, ⟨hswf, hzwf⟩, fun k _ => ⟨?_, ?_⟩⟩
  · rintro rfl
    simp [newCell, cellAt, zAt, chAt, hold, hd, hin, hzat, hsat]
  · intro hne
    have : ¬ (k.1 = y ∧ k.2 = x) := fun h => hne (Prod.ext h.1 h.2)
    simp [cellAt, zAt, chAt, hzat, hsat, this]

/-- A loop whose body rewrites the cells it hits by an idempotent function of the cell
rewrites exactly the cells hit by some iteration. -/
theorem foldlM_cells {S ι K V : Type} (WF : S → Prop) (get : S → K → V) (dom : K → Prop)
    (new : K → V → V) (hit : ι → K → Prop) (step : S → ι → Option S)
    (hidem : ∀ k v, new k (new k v) = new k v)
    (hstep : ∀ s i, WF s → ∃ s', step s i = some s' ∧ WF s' ∧
      ∀ k, dom k → (hit i k → get s' k = new k (get s k)) ∧
        (¬ hit i k → get s' k = get s k))
    (l : List ι) (s : S) (hs : WF s) :
    ∃ s', l.foldlM step s = some s' ∧ WF s' ∧
      ∀ k, dom k → ((∃ i ∈ l, hit i k) → get s' k = new k (get s k)) ∧
        ((¬ ∃ i ∈ l, hit i k) → get s' k = get s k) := by
  induction l generalizing s with
  | nil =>
    refine ⟨s, rfl, hs, fun k _ => ⟨?_, fun _ => rfl⟩⟩
    rintro ⟨i, hi, -⟩
    simp at hi
  | cons a l ih =>
    obtain ⟨s1, h1, hwf1, hget1⟩ := hstep s a hs
    obtain ⟨s2, h2, hwf2, hget2⟩ := ih s1 hwf1
    refine ⟨s2, ?_, hwf2, fun k hk => ?_⟩
    · rw [List.foldlM_cons, h1]
      exact h2
    · obtain ⟨ha1, ha2⟩ := hget1 k hk
      obtain ⟨hl1, hl2⟩ := hget2 k hk
      by_cases hl : ∃ i ∈ l, hit i k
      · by_cases ha : hit a k
        · refine ⟨fun _ => ?_, fun hne => absurd ⟨a, List.mem_cons_self a l, ha⟩ hne⟩
          rw [hl1 hl, ha1 ha, hidem]
        · refine ⟨fun _ => ?_, fun hne => ?_⟩
          · rw [hl1 hl, ha2 ha]
          · obtain ⟨i, hi, hik⟩ := hl
            exact absurd ⟨i, List.mem_cons_of_mem a hi, hik⟩ hne
      · by_cases ha : hit a k
        · refine ⟨fun _ => ?_, fun hne => absurd ⟨a, List.mem_cons_self a l, ha⟩ hne⟩
          rw [hl2 hl, ha1 ha]
        · refine ⟨?_, fun _ => ?_⟩
          · rintro ⟨i, hi, hik⟩
            rcases List.mem_cons.mp hi with rfl | hi
            · exact absurd hik ha
            · exact absurd ⟨i, hi, hik⟩ hl
          · rw [hl2 hl, ha2 ha]

theorem mem_intRange (lo hi i : Int) : i ∈ intRange lo hi ↔ lo ≤ i ∧ i ≤ hi := by
  unfold intRange
  simp only [List.mem_map, List.mem_range]
  constructor
  · rintro ⟨n, hn, rfl⟩
    omega
  · rintro ⟨h1, h2⟩
    exact ⟨(i - lo).toNat, by omega, by omega⟩

theorem drawTriangle_spec (p0 p1 p2 : Point2D α) (b : Buffers α) (hb : b.WF) :
    ∃ b', drawTriangle b p0 p1 p2 = some b' ∧ b'.WF ∧
      ∀ k : Int × Int, onScreen k.1 k.2 →
        (inBox p0 p1 p2 k → cellAt b' k = newCell p0 p1 p2 k (cellAt b k)) ∧
        (¬ inBox p0 p1 p2 k → cellAt b' k = cellAt b k) := by
  unfold drawTriangle
  simp only []
  have hrow : ∀ (s : Buffers α) (y : Int), s.WF →
      ∃ s', (intRange (min (min p0.x p1.x) p2.x) (max (max p0.x p1.x) p2.x)).foldlM
          (fun b x => drawPixel p0 p1 p2 y x b) s = some s' ∧ s'.WF ∧
        ∀ k : Int × Int, onScreen k.1 k.2 →
          ((k.1 = y ∧ min (min p0.x p1.x) p2.x ≤ k.2 ∧ k.2 ≤ max (max p0.x p1.x) p2.x) →
            cellAt s' k = newCell p0 p1 p2 k (cellAt s k)) ∧
          (¬ (k.1 = y ∧ min (min p0.x p1.x) p2.x ≤ k.2 ∧ k.2 ≤ max (max p0.x p1.x) p2.x) →
            cellAt s' k = cellAt s k) := by
    intro s y hs
    obtain ⟨s', h1, h2, h3⟩ := foldlM_cells Buffers.WF cellAt (fun k => onScreen k.1 k.2)
      (newCell p0 p1 p2) (fun (x : Int) (k : Int × Int) => k = (y, x))
      (fun b x => drawPixel p0 p1 p2 y x b) (newCell_idem p0 p1 p2)
      (fun s x hs => drawPixel_spec p0 p1 p2 y x s hs)
      (intRange (min (min p0.x p1.x) p2.x) (max (max p0.x p1.x) p2.x)) s hs
    refine ⟨s', h1, h2, fun k hk => ?_⟩
    obtain ⟨h4, h5⟩ := h3 k hk
    have hiff : (∃ i ∈ intRange (min (min p0.x p1.x) p2.x) (max (max p0.x p1.x) p2.x),
        k = (y, i)) ↔
        (k.1 = y ∧ min (min p0.x p1.x) p2.x ≤ k.2 ∧ k.2 ≤ max (max p0.x p1.x) p2.x) := by
      constructor
      · rintro ⟨i, hi, rfl⟩
        exact ⟨rfl, (mem_intRange _ _ _).1 hi⟩
      · rintro ⟨h6, h7⟩
        exact ⟨k.2, (mem_intRange _ _ _).2 h7, Prod.ext h6 rfl⟩
    exact ⟨fun h => h4 (hiff.2 h), fun h => h5 (fun h' => h (hiff.1 h'))⟩
  obtain ⟨b', h1, h2, h3⟩ := foldlM_cells Buffers.WF cellAt (fun k => onScreen k.1 k.2)
    (newCell p0 p1 p2)
    (fun (y : Int) (k : Int × Int) =>
      k.1 = y ∧ min (min p0.x p1.x) p2.x ≤ k.2 ∧ k.2 ≤ max (max p0.x p1.x) p2.x)
    (fun b y => (intRange (min (min p0.x p1.x) p2.x) (max (max p0.x p1.x) p2.x)).foldlM
      (fun b x => drawPixel p0 p1 p2 y x b) b) (newCell_idem p0 p1 p2)
    (fun s y hs => hrow s y hs)
    (intRange (min (min p0.y p1.y) p2.y) (max (max p0.y p1.y) p2.y)) b hb
  refine ⟨b', h1, h2, fun k hk => ?_⟩
  obtain ⟨h4, h5⟩ := h3 k hk
  have hiff : (∃ i ∈ intRange (min (min p0.y p1.y) p2.y) (max (max p0.y p1.y) p2.y),
      k.1 = i ∧ min (min p0.x p1.x) p2.x ≤ k.2 ∧ k.2 ≤ max (max p0.x p1.x) p2.x) ↔
      inBox p0 p1 p2 k := by
    unfold inBox
    constructor
    · rintro ⟨i, hi, rfl, h6⟩
      exact ⟨(mem_intRange _ _ _).1 hi, h6⟩
    · rintro ⟨h6, h7⟩
      exact ⟨k.1, (mem_intRange _ _ _).2 h6, rfl, h7⟩
  exact ⟨fun h => h4 (hiff.2 h), fun h => h5 (fun h' => h (hiff.1 h'))⟩

theorem bary_lower (w0 w1 w2 a x x0 x1 x2 m : Int) (h0 : 0 ≤ w0) (h1 : 0 ≤ w1)
    (h2 : 0 ≤ w2) (hsum : w0 + w1 + w2 = a) (ha : a ≠ 0)
    (hx : w0 * x0 + w1 * x1 + w2 * x2 = a * x) (hm0 : m ≤ x0) (hm1 : m ≤ x1)
    (hm2 : m ≤ x2) : m ≤ x := by
  have hpos : 0 < a := by omega
  have e : a * m = w0 * m + w1 * m + w2 * m := by rw [← hsum]; ring
  have h : a * m ≤ a * x := by
    nlinarith [mul_nonneg h0 (sub_nonneg.2 hm0), mul_nonneg h1 (sub_nonneg.2 hm1),
      mul_nonneg h2 (sub_nonneg.2 hm2)]
  exact le_of_mul_le_mul_left h hpos

theorem bary_upper (w0 w1 w2 a x x0 x1 x2 m : Int) (h0 : 0 ≤ w0) (h1 : 0 ≤ w1)
    (h2 : 0 ≤ w2) (hsum : w0 + w1 + w2 = a) (ha : a ≠ 0)
    (hx : w0 * x0 + w1 * x1 + w2 * x2 = a * x) (hm0 : x0 ≤ m) (hm1 : x1 ≤ m)
    (hm2 : x2 ≤ m) : x ≤ m := by
  have hpos : 0 < a := by omega
  have e : a * m = w0 * m + w1 * m + w2 * m := by rw [← hsum]; ring
  have h : a * x ≤ a * m := by
    nlinarith [mul_nonneg h0 (sub_nonneg.2 hm0), mul_nonneg h1 (sub_nonneg.2 hm1),
      mul_nonneg h2 (sub_nonneg.2 hm2)]
  exact le_of_mul_le_mul_left h hpos

theorem edge_sum (p0 p1 p2 : Point2D α) (x y : Int) :
    edgeInt p1 p2 (pixelPoint x y : Point2D α) + edgeInt p2 p0 (pixelPoint x y : Point2D α)
      + edgeInt p0 p1 (pixelPoint x y : Point2D α) = edgeInt p0 p1 p2 := by
  simp only [edgeInt, pixelPoint]
  ring

theorem edge_bary_x (p0 p1 p2 : Point2D α) (x y : Int) :
    edgeInt p1 p2 (pixelPoint x y : Point2D α) * p0.x
      + edgeInt p2 p0 (pixelPoint x y : Point2D α) * p1.x
      + edgeInt p0 p1 (pixelPoint x y : Point2D α) * p2.x = edgeInt p0 p1 p2 * x := by
  simp only [edgeInt, pixelPoint]
  ring

theorem edge_bary_y (p0 p1 p2 : Point2D α) (x y : Int) :
    edgeInt p1 p2 (pixelPoint x y : Point2D α) * p0.y
      + edgeInt p2 p0 (pixelPoint x y : Point2D α) * p1.y
      + edgeInt p0 p1 (pixelPoint x y : Point2D α) * p2.y = edgeInt p0 p1 p2 * y := by
  simp only [edgeInt, pixelPoint]
  ring

theorem insideTest_iff (p0 p1 p2 : Point2D α) (x y : Int) :
    insideTest p0 p1 p2 x y ↔
      (0 ≤ edgeInt p1 p2 (pixelPoint x y : Point2D α) ∧
        0 ≤ edgeInt p2 p0 (pixelPoint x y : Point2D α) ∧
        0 ≤ edgeInt p0 p1 (pixelPoint x y : Point2D α)) ∨
      (edgeInt p1 p2 (pixelPoint x y : Point2D α) ≤ 0 ∧
        edgeInt p2 p0 (pixelPoint x y : Point2D α) ≤ 0 ∧
        edgeInt p0 p1 (pixelPoint x y : Point2D α) ≤ 0) := by
  unfold insideTest edgeFunction
  simp only [ge_iff_le, Int.cast_nonneg, Int.cast_nonpos]

theorem inside_inBox (p0 p1 p2 : Point2D α) (x y : Int) (ha : edgeInt p0 p1 p2 ≠ 0)
    (h : insideTest p0 p1 p2 x y) : inBox p0 p1 p2 (y, x) := by
  rw [insideTest_iff] at h
  have hs := edge_sum p0 p1 p2 x y
  have hx := edge_bary_x p0 p1 p2 x y
  have hy := edge_bary_y p0 p1 p2 x y
  unfold inBox
  rcases h with ⟨h0, h1, h2⟩ | ⟨h0, h1, h2⟩
  · refine ⟨⟨?_, ?_⟩, ?_, ?_⟩
    · exact bary_lower _ _ _ _ y _ _ _ _ h0 h1 h2 hs ha hy (by simp) (by simp) (by simp)
    · exact bary_upper _ _ _ _ y _ _ _ _ h0 h1 h2 hs ha hy (by simp) (by simp) (by simp)
    · exact bary_lower _ _ _ _ x _ _ _ _ h0 h1 h2 hs ha hx (by simp) (by simp) (by simp)
    · exact bary_upper _ _ _ _ x _ _ _ _ h0 h1 h2 hs ha hx (by simp) (by simp) (by simp)
  · have hs' : -edgeInt p1 p2 (pixelPoint x y : Point2D α)
        + -edgeInt p2 p0 (pixelPoint x y : Point2D α)
        + -edgeInt p0 p1 (pixelPoint x y : Point2D α) = -edgeInt p0 p1 p2 := by omega
    have ha' : -edgeInt p0 p1 p2 ≠ 0 := by omega
    have hx' : -edgeInt p1 p2 (pixelPoint x y : Point2D α) * p0.x
        + -edgeInt p2 p0 (pixelPoint x y : Point2D α) * p1.x
        + -edgeInt p0 p1 (pixelPoint x y : Point2D α) * p2.x = -edgeInt p0 p1 p2 * x := by
      linarith
    have hy' : -edgeInt p1 p2 (pixelPoint x y : Point2D α) * p0.y
        + -edgeInt p2 p0 (pixelPoint x y : Point2D α) * p1.y
        + -edgeInt p0 p1 (pixelPoint x y : Point2D α) * p2.y = -edgeInt p0 p1 p2 * y := by
      linarith
    have h0' : 0 ≤ -edgeInt p1 p2 (pixelPoint x y : Point2D α) := by omega
    have h1' : 0 ≤ -edgeInt p2 p0 (pixelPoint x y : Point2D α) := by omega
    have h2' : 0 ≤ -edgeInt p0 p1 (pixelPoint x y : Point2D α) := by omega
    refine ⟨⟨?_, ?_⟩, ?_, ?_⟩
    · exact bary_lower _ _ _ _ y _ _ _ _ h0' h1' h2' hs' ha' hy' (by simp) (by simp) (by simp)
    · exact bary_upper _ _ _ _ y _ _ _ _ h0' h1' h2' hs' ha' hy' (by simp) (by simp) (by simp)
    · exact bary_lower _ _ _ _ x _ _ _ _ h0' h1' h2' hs' ha' hx' (by simp) (by simp) (by simp)
    · exact bary_upper _ _ _ _ x _ _ _ _ h0' h1' h2' hs' ha' hx' (by simp) (by simp) (by simp)

/-- For a triangle that is not degenerate every cell of the screen is rewritten by
`newCell`, which leaves the cells failing the inside test as they are. -/
theorem drawTriangle_cells (p0 p1 p2 : Point2D α) (b : Buffers α) (hb : b.WF)
    (ha : edgeInt p0 p1 p2 ≠ 0) :
    ∃ b', drawTriangle b p0 p1 p2 = some b' ∧ b'.WF ∧
      ∀ k : Int × Int, onScreen k.1 k.2 →
        cellAt b' k = newCell p0 p1 p2 k (cellAt b k) := by
  obtain ⟨b', h1, h2, h3⟩ := drawTriangle_spec p0 p1 p2 b hb
  refine ⟨b', h1, h2, fun k hk => ?_⟩
  by_cases hbox : inBox p0 p1 p2 k
  · exact (h3 k hk).1 hbox
  · rw [(h3 k hk).2 hbox]
    have hni : ¬ insideTest p0 p1 p2 k.2 k.1 := fun h => hbox (inside_inBox p0 p1 p2 _ _ ha h)
    simp [newCell, hni]

theorem idx?_filled {β : Type} (n i : Int) (v : β) (h0 : 0 ≤ i) (h1 : i < n) :
    idx? (filled n v) i = some v := by
  unfold idx? filled
  rw [if_pos h0, List.getElem?_replicate, if_pos (by omega)]

theorem freshBuffers_WF : (freshBuffers : Buffers α).WF := by
  have hgrid : ∀ (β : Type) (v : β), GridWF (filled HEIGHT (filled WIDTH v)) := by
    intro β v
    refine ⟨by simp [filled], fun r hr => ?_⟩
    rw [filled, List.mem_replicate] at hr
    rw [hr.2]
    simp [filled]
  exact ⟨hgrid _ _, hgrid _ _⟩

theorem cellAt_freshBuffers (k : Int × Int) (hk : onScreen k.1 k.2) :
    cellAt (freshBuffers : Buffers α) k = (farDepth, ' ') := by
  obtain ⟨hx0, hx1, hy0, hy1⟩ := hk
  simp [cellAt, zAt, chAt, at2?, freshBuffers, idx?_filled _ _ _ hy0 hy1,
    idx?_filled _ _ _ hx0 hx1]

theorem at2?_zbuffer (b : Buffers α) (hb : b.WF) (y x : Int) (h : onScreen y x) :
    at2? b.zbuffer y x = some (zAt b y x) := by
  obtain ⟨v, hv⟩ := at2?_some_of_wf b.zbuffer y x hb.2 h
  simp [zAt, hv]

theorem at2?_screen (b : Buffers α) (hb : b.WF) (y x : Int) (h : onScreen y x) :
    at2? b.screen y x = some (chAt b y x) := by
  obtain ⟨v, hv⟩ := at2?_some_of_wf b.screen y x hb.1 h
  simp [chAt, hv]

theorem interpDepth_const (p0 p1 p2 : Point2D α) (x y : Int) (d : α)
    (ha : edgeInt p0 p1 p2 ≠ 0) (h0 : p0.depth = d) (h1 : p1.depth = d)
    (h2 : p2.depth = d) : interpDepth p0 p1 p2 x y = d := by
  have hs := edge_sum p0 p1 p2 x y
  have hs' : (edgeFunction p1 p2 (pixelPoint x y) : α) + edgeFunction p2 p0 (pixelPoint x y)
      + edgeFunction p0 p1 (pixelPoint x y) = edgeFunction p0 p1 p2 := by
    unfold edgeFunction
    exact_mod_cast hs
  have ha' : (edgeFunction p0 p1 p2 : α) ≠ 0 := by
    unfold edgeFunction
    exact_mod_cast ha
  unfold interpDepth
  simp only [h0, h1, h2]
  rw [← hs'] at ha' ⊢
  field_simp
  ring

/-- Any sequence of calls of `drawTriangle` on buffers of the screen's dimensions returns
buffers of the same dimensions. -/
theorem drawTriangles_WF (ts : List (Triangle α)) (b : Buffers α) (hb : b.WF) :
    ∃ b', drawTriangles b ts = some b' ∧ b'.WF := by
  induction ts generalizing b with
  | nil => exact ⟨b, rfl, hb⟩
  | cons t ts ih =>
    obtain ⟨b1, h1, hwf1, -⟩ := drawTriangle_spec t.1 t.2.1 t.2.2 b hb
    obtain ⟨b2, h2, hwf2⟩ := ih b1 hwf1
    refine ⟨b2, ?_, hwf2⟩
    unfold drawTriangles at h2 ⊢
    rw [List.foldlM_cons, h1]
    exact h2

theorem drawTriangles_cons (t : Triangle α) (ts : List (Triangle α)) (b : Buffers α) :
    drawTriangles b (t :: ts) =
      (drawTriangle b t.1 t.2.1 t.2.2).bind fun b1 => drawTriangles b1 ts := by
  unfold drawTriangles
  rw [List.foldlM_cons]
  rfl

/-- The relation between the two buffers at one cell: blank at the far depth, or a depth
below it with the glyph lines 90-92 compute from that depth. -/
theorem consistent_newCell (p0 p1 p2 : Point2D α) (k : Int × Int) (v : α × Char)
    (hv : (v.1 = farDepth ∧ v.2 = ' ') ∨ (v.1 < farDepth ∧ shadeChar v.1 = some v.2)) :
    ((newCell p0 p1 p2 k v).1 = farDepth ∧ (newCell p0 p1 p2 k v).2 = ' ') ∨
      ((newCell p0 p1 p2 k v).1 < farDepth ∧
        shadeChar (newCell p0 p1 p2 k v).1 = some (newCell p0 p1 p2 k v).2) := by
  unfold newCell
  by_cases h : insideTest p0 p1 p2 k.2 k.1 ∧ interpDepth p0 p1 p2 k.2 k.1 < v.1
  · rw [if_pos h]
    right
    refine ⟨?_, shadeChar_eq _⟩
    rcases hv with ⟨h1, -⟩ | ⟨h1, -⟩
    · exact h1 ▸ h.2
    · exact lt_trans h.2 h1
  · rw [if_neg h]
    exact hv

theorem drawTriangles_consistent (ts : List (Triangle α)) (b : Buffers α) (hb : b.WF)
    (hc : ∀ k : Int × Int, onScreen k.1 k.2 →
      ((cellAt b k).1 = farDepth ∧ (cellAt b k).2 = ' ') ∨
        ((cellAt b k).1 < farDepth ∧ shadeChar (cellAt b k).1 = some (cellAt b k).2)) :
    ∃ b', drawTriangles b ts = some b' ∧ b'.WF ∧
      ∀ k : Int × Int, onScreen k.1 k.2 →
        ((cellAt b' k).1 = farDepth ∧ (cellAt b' k).2 = ' ') ∨
          ((cellAt b' k).1 < farDepth ∧ shadeChar (cellAt b' k).1 = some (cellAt b' k).2) := by
  induction ts generalizing b with
  | nil => exact ⟨b, rfl, hb, hc⟩
  | cons t ts ih =>
    obtain ⟨b1, h1, hwf1, hcell⟩ := drawTriangle_spec t.1 t.2.1 t.2.2 b hb
    have hc1 : ∀ k : Int × Int, onScreen k.1 k.2 →
        ((cellAt b1 k).1 = farDepth ∧ (cellAt b1 k).2 = ' ') ∨
          ((cellAt b1 k).1 < farDepth ∧ shadeChar (cellAt b1 k).1 = some (cellAt b1 k).2) := by
      intro k hk
      by_cases hbox : inBox t.1 t.2.1 t.2.2 k
      · rw [(hcell k hk).1 hbox]
        exact consistent_newCell _ _ _ k _ (hc k hk)
      · rw [(hcell k hk).2 hbox]
        exact hc k hk
    obtain ⟨b2, h2, hwf2, hc2⟩ := ih b1 hwf1 hc1
    refine ⟨b2, ?_, hwf2, hc2⟩
    rw [drawTriangles_cons, h1]
    exact h2

theorem drawTriangles_depth (ts : List (Triangle α)) (hts : ∀ t ∈ ts, nonDegenerate t)
    (b : Buffers α) (hb : b.WF) :
    ∃ b', drawTriangles b ts = some b' ∧ b'.WF ∧
      ∀ y x : Int, onScreen y x →
        zAt b' y x = (coveringDepths ts y x).foldl min (zAt b y x) := by
  induction ts generalizing b with
  | nil => exact ⟨b, rfl, hb, fun y x _ => rfl⟩
  | cons t ts ih =>
    obtain ⟨b1, h1, hwf1, hcell⟩ :=
      drawTriangle_cells t.1 t.2.1 t.2.2 b hb (hts t (List.mem_cons_self t ts))
    obtain ⟨b2, h2, hwf2, hz⟩ := ih (fun t' ht' => hts t' (List.mem_cons_of_mem t ht')) b1 hwf1
    refine ⟨b2, ?_, hwf2, fun y x hyx => ?_⟩
    · rw [drawTriangles_cons, h1]
      exact h2
    · rw [hz y x hyx]
      have hc := congrArg Prod.fst (hcell (y, x) hyx)
      simp only [cellAt] at hc
      rw [hc]
      unfold coveringDepths newCell
      by_cases hin : insideTest t.1 t.2.1 t.2.2 x y
      · simp only [List.filter_cons, hin, decide_True, if_true, List.map_cons, List.foldl_cons]
        by_cases hlt : interpDepth t.1 t.2.1 t.2.2 x y < zAt b y x
        · simp [hlt, min_eq_right (le_of_lt hlt)]
        · simp [hlt, min_eq_left (not_lt.1 hlt)]
      · simp [List.filter_cons, hin]

theorem toInt_eq (q : α) (n : Int) (hn : 0 ≤ n) (h1 : (n : α) ≤ q) (h2 : q < (n : α) + 1) :
    toInt q = n := by
  unfold toInt
  have h0 : (0 : α) ≤ q := le_trans (by exact_mod_cast hn) h1
  rw [if_pos h0]
  exact Int.floor_eq_iff.2 ⟨h1, h2⟩

theorem project_eq (tan : α → α) (p : Point3D α) (X Y : Int) (hX : 0 ≤ X) (hY : 0 ≤ Y)
    (hx1 : (X : α) ≤ 40 + p.x * (fovScale tan / (p.z + 4) * 12) * 2)
    (hx2 : 40 + p.x * (fovScale tan / (p.z + 4) * 12) * 2 < (X : α) + 1)
    (hy1 : (Y : α) ≤ 20 - p.y * (fovScale tan / (p.z + 4) * 12))
    (hy2 : 20 - p.y * (fovScale tan / (p.z + 4) * 12) < (Y : α) + 1) :
    project tan p = ⟨X, Y, p.z + 4⟩ := by
  have hw : (((WIDTH / 2 : Int) : Int) : α) = 40 := by
    have : (WIDTH / 2 : Int) = 40 := by decide
    rw [this]; norm_num
  have hh : (((HEIGHT / 2 : Int) : Int) : α) = 20 := by
    have : (HEIGHT / 2 : Int) = 20 := by decide
    rw [this]; norm_num
  have ha : ((WIDTH : Int) : α) / ((HEIGHT : Int) : α) = 2 := by
    unfold WIDTH HEIGHT
    norm_num
  unfold project
  simp only [hw, hh, ha, cameraZ, projScale, CAMERA_DISTANCE, CUBE_SIZE]
  rw [toInt_eq _ X hX hx1 hx2, toInt_eq _ Y hY hy1 hy2]

/-- The projected vertices of the unrotated cube, for any value of `fovScale` in
`(1, 1.04]` (the exact value is about 1.0000013), `cos 0 = 1` and `sin 0 = 0`. -/
theorem projectedVertices_zero (cos sin tan : α → α) (hc : cos 0 = 1) (hs : sin 0 = 0)
    (hf1 : 1 < fovScale tan) (hf2 : fovScale tan ≤ 26 / 25) :
    projectedVertices cos sin tan 0 0 =
      [⟨31, 24, 3⟩, ⟨48, 24, 3⟩, ⟨48, 15, 3⟩, ⟨31, 15, 3⟩,
       ⟨35, 22, 5⟩, ⟨44, 22, 5⟩, ⟨44, 17, 5⟩, ⟨35, 17, 5⟩] := by
  unfold projectedVertices cube_vertices
  simp only [List.map_cons, List.map_nil, rotateX, rotateY, hc, hs, mul_one, mul_zero,
    sub_zero, add_zero, zero_add]
  have e3 : (-1 : α) + 4 = 3 := by norm_num
  have e5 : (1 : α) + 4 = 5 := by norm_num
  have p0 := project_eq tan (⟨-1, -1, -1⟩ : Point3D α) 31 24 (by norm_num) (by norm_num)
    (by norm_num; linarith) (by norm_num; linarith) (by norm_num; linarith)
    (by norm_num; linarith)
  have p1 := project_eq tan (⟨1, -1, -1⟩ : Point3D α) 48 24 (by norm_num) (by norm_num)
    (by norm_num; linarith) (by norm_num; linarith) (by norm_num; linarith)
    (by norm_num; linarith)
  have p2 := project_eq tan (⟨1, 1, -1⟩ : Point3D α) 48 15 (by norm_num) (by norm_num)
    (by norm_num; linarith) (by norm_num; linarith) (by norm_num; linarith)
    (by norm_num; linarith)
  have p3 := project_eq tan (⟨-1, 1, -1⟩ : Point3D α) 31 15 (by norm_num) (by norm_num)
    (by norm_num; linarith) (by norm_num; linarith) (by norm_num; linarith)
    (by norm_num; linarith)
  have p4 := project_eq tan (⟨-1, -1, 1⟩ : Point3D α) 35 22 (by norm_num) (by norm_num)
    (by norm_num; linarith) (by norm_num; linarith) (by norm_num; linarith)
    (by norm_num; linarith)
  have p5 := project_eq tan (⟨1, -1, 1⟩ : Point3D α) 44 22 (by norm_num) (by norm_num)
    (by norm_num; linarith) (by norm_num; linarith) (by norm_num; linarith)
    (by norm_num; linarith)
  have p6 := project_eq tan (⟨1, 1, 1⟩ : Point3D α) 44 17 (by norm_num) (by norm_num)
    (by norm_num; linarith) (by norm_num; linarith) (by norm_num; linarith)
    (by norm_num; linarith)
  have p7 := project_eq tan (⟨-1, 1, 1⟩ : Point3D α) 35 17 (by norm_num) (by norm_num)
    (by norm_num; linarith) (by norm_num; linarith) (by norm_num; linarith)
    (by norm_num; linarith)
  simp only [e3, e5] at p0 p1 p2 p3 p4 p5 p6 p7
  rw [p0, p1, p2, p3, p4, p5, p6, p7]

theorem newCell_const (p0 p1 p2 : Point2D α) (d : α) (ha : edgeInt p0 p1 p2 ≠ 0)
    (h0 : p0.depth = d) (h1 : p1.depth = d) (h2 : p2.depth = d) (k : Int × Int)
    (v : α × Char) :
    newCell p0 p1 p2 k v = if insideTest p0 p1 p2 k.2 k.1 ∧ d < v.1 then (d, '.') else v := by
  unfold newCell
  rw [interpDepth_const p0 p1 p2 k.2 k.1 d ha h0 h1 h2]

/-- The two triangles of a face of constant depth `d` below the far depth, drawn into
fresh buffers: the cells passing one of the two inside tests hold `d` and the first glyph,
the others are untouched. -/
theorem face_cells (pa pb pc pd : Point2D α) (d : α) (hd : d < farDepth)
    (h1 : edgeInt pa pb pc ≠ 0) (h2 : edgeInt pa pc pd ≠ 0) (ha : pa.depth = d)
    (hb : pb.depth = d) (hc : pc.depth = d) (hdd : pd.depth = d) :
    ∃ b, ((drawTriangle freshBuffers pa pb pc).bind fun b => drawTriangle b pa pc pd) = some b ∧
      b.WF ∧ ∀ k : Int × Int, onScreen k.1 k.2 →
        cellAt b k = if insideTest pa pb pc k.2 k.1 ∨ insideTest pa pc pd k.2 k.1 then (d, '.')
          else (farDepth, ' ') := by
  obtain ⟨b1, e1, wf1, c1⟩ := drawTriangle_cells pa pb pc freshBuffers freshBuffers_WF h1
  obtain ⟨b2, e2, wf2, c2⟩ := drawTriangle_cells pa pc pd b1 wf1 h2
  refine ⟨b2, by rw [e1]; exact e2, wf2, fun k hk => ?_⟩
  rw [c2 k hk, c1 k hk, cellAt_freshBuffers k hk, newCell_const pa pb pc d h1 ha hb hc,
    newCell_const pa pc pd d h2 ha hc hdd]
  by_cases i1 : insideTest pa pb pc k.2 k.1
  · simp [i1, hd]
  · by_cases i2 : insideTest pa pc pd k.2 k.1
    · simp [i1, i2, hd]
    · simp [i1, i2]

theorem drawFace_front (pv : List (Point2D α)) (p0 p1 p2 p3 p4 p5 p6 p7 : Point2D α)
    (hpv : pv = [p0, p1, p2, p3, p4, p5, p6, p7]) (b : Buffers α) :
    drawFace pv b [4, 5, 6, 7] =
      (drawTriangle b p4 p5 p6).bind fun b => drawTriangle b p4 p6 p7 := by
  subst hpv
  rfl

theorem drawFace_back (pv : List (Point2D α)) (p0 p1 p2 p3 p4 p5 p6 p7 : Point2D α)
    (hpv : pv = [p0, p1, p2, p3, p4, p5, p6, p7]) (b : Buffers α) :
    drawFace pv b [0, 1, 2, 3] =
      (drawTriangle b p0 p1 p2).bind fun b => drawTriangle b p0 p2 p3 := by
  subst hpv
  rfl

theorem front_inside_iff (x y : Int) :
    (insideTest (⟨35, 22, 5⟩ : Point2D α) ⟨44, 22, 5⟩ ⟨44, 17, 5⟩ x y ∨
      insideTest (⟨35, 22, 5⟩ : Point2D α) ⟨44, 17, 5⟩ ⟨35, 17, 5⟩ x y) ↔
      (35 ≤ x ∧ x ≤ 44 ∧ 17 ≤ y ∧ y ≤ 22) := by
  rw [insideTest_iff, insideTest_iff]
  simp only [edgeInt, pixelPoint]
  omega

theorem back_inside_iff (x y : Int) :
    (insideTest (⟨31, 24, 3⟩ : Point2D α) ⟨48, 24, 3⟩ ⟨48, 15, 3⟩ x y ∨
      insideTest (⟨31, 24, 3⟩ : Point2D α) ⟨48, 15, 3⟩ ⟨31, 15, 3⟩ x y) ↔
      (31 ≤ x ∧ x ≤ 48 ∧ 15 ≤ y ∧ y ≤ 24) := by
  rw [insideTest_iff, insideTest_iff]
  simp only [edgeInt, pixelPoint]
  omega

/-- The real library functions meet the hypotheses under which the unrotated cube is
projected: `cos 0 = 1`, `sin 0 = 0` and `fovScale`, that is `1 / tan (0.7853975)`, lies
in `(1, 1.04]`. -/
theorem real_library_functions :
    Real.cos 0 = 1 ∧ Real.sin 0 = 0 ∧ 1 < fovScale Real.tan ∧
      fovScale Real.tan ≤ 26 / 25 := by
  have harg : (FOV : ℝ) * (1 / 2) * (314159 / 100000) / 180 = 314159 / 400000 := by
    unfold FOV
    norm_num
  have hx1 : |(314159 / 400000 : ℝ)| ≤ 1 := by
    rw [abs_of_nonneg (by norm_num)]
    norm_num
  have hs := abs_le.1 (Real.sin_bound hx1)
  have hc := abs_le.1 (Real.cos_bound hx1)
  rw [abs_of_nonneg (by norm_num : (0 : ℝ) ≤ 314159 / 400000)] at hs hc
  have hcpos : 0 < Real.cos (314159 / 400000) := by
    have := hc.1
    norm_num at this
    linarith
  have hlow : 25 / 26 ≤ Real.tan (314159 / 400000) := by
    rw [Real.tan_eq_sin_div_cos, le_div_iff₀ hcpos]
    have h1 := hs.1
    have h2 := hc.2
    norm_num at h1 h2
    linarith
  have hup : Real.tan (314159 / 400000) < 1 := by
    have hlt : (314159 / 400000 : ℝ) < Real.pi / 4 := by
      have := Real.pi_gt_d6
      linarith
    have := Real.tan_lt_tan_of_nonneg_of_lt_pi_div_two (by norm_num)
      (by linarith [Real.pi_pos]) hlt
    rwa [Real.tan_pi_div_four] at this
  have hpos : 0 < Real.tan (314159 / 400000) := by linarith
  refine ⟨Real.cos_zero, Real.sin_zero, ?_, ?_⟩
  · unfold fovScale
    rw [harg, lt_div_iff₀ hpos]
    linarith
  · unfold fovScale
    rw [harg, div_le_iff₀ hpos]
    linarith

end Lemmas

/-! ## Lemmas on rounding to binary32 -/

theorem log2Fuel_spec (fuel n : Nat) (h : n ≤ fuel) (hn : n ≠ 0) :
    2 ^ log2Fuel fuel n ≤ n ∧ n < 2 ^ (log2Fuel fuel n + 1) := by
  induction fuel generalizing n with
  | zero => omega
  | succ fuel ih =>
    unfold log2Fuel
    by_cases h2 : n < 2
    · rw [if_pos h2]
      simp
      omega
    · rw [if_neg h2]
      obtain ⟨h3, h4⟩ := ih (n / 2) (by omega) (by omega)
      rw [pow_succ, pow_succ]
      rw [pow_succ] at h4
      constructor <;> omega

theorem natLog2_spec (n : Nat) (hn : n ≠ 0) :
    2 ^ natLog2 n ≤ n ∧ n < 2 ^ (natLog2 n + 1) :=
  log2Fuel_spec n n (le_refl n) hn

theorem pow2_eq (e : Int) : pow2 e = (2 : ℚ) ^ e := by
  unfold pow2
  by_cases h : 0 ≤ e
  · rw [if_pos h]
    obtain ⟨n, rfl⟩ := Int.eq_ofNat_of_zero_le h
    simp
  · rw [if_neg h]
    obtain ⟨n, hn⟩ := Int.exists_eq_neg_ofNat (le_of_lt (not_le.1 h))
    subst hn
    simp

theorem pow2_pos (e : Int) : 0 < pow2 e := by
  rw [pow2_eq]
  exact zpow_pos (by norm_num) e

theorem pow2_add (a b : Int) : pow2 (a + b) = pow2 a * pow2 b := by
  rw [pow2_eq, pow2_eq, pow2_eq, zpow_add₀ (by norm_num)]

theorem pow2_le (a b : Int) (h : a ≤ b) : pow2 a ≤ pow2 b := by
  rw [pow2_eq, pow2_eq]
  exact zpow_le_zpow_right₀ (by norm_num) h

theorem pow2_lt_iff (a b : Int) : pow2 a < pow2 b ↔ a < b := by
  rw [pow2_eq, pow2_eq]
  exact zpow_lt_zpow_iff_right₀ (by norm_num)

theorem expo_spec (q : ℚ) (hq : q ≠ 0) :
    pow2 (expo q) ≤ |q| ∧ |q| < pow2 (expo q + 1) := by
  have hnum : q.num.natAbs ≠ 0 := by
    simpa using hq
  have hden : q.den ≠ 0 := q.den_nz
  obtain ⟨a1, a2⟩ := natLog2_spec _ hnum
  obtain ⟨b1, b2⟩ := natLog2_spec _ hden
  have habs : |q| = (q.num.natAbs : ℚ) / (q.den : ℚ) := by
    conv_lhs => rw [← Rat.num_div_den q]
    rw [abs_div, Nat.abs_cast, Nat.cast_natAbs, Int.cast_abs]
  have hdpos : (0 : ℚ) < q.den := by exact_mod_cast Nat.pos_of_ne_zero hden
  have A1 : ((2 : ℚ) ^ (natLog2 q.num.natAbs : Int)) ≤ (q.num.natAbs : ℚ) := by
    rw [zpow_natCast]; exact_mod_cast a1
  have A2 : (q.num.natAbs : ℚ) < (2 : ℚ) ^ ((natLog2 q.num.natAbs : Int) + 1) := by
    have : ((natLog2 q.num.natAbs : Int) + 1) = ((natLog2 q.num.natAbs + 1 : Nat) : Int) := by
      push_cast; ring
    rw [this, zpow_natCast]; exact_mod_cast a2
  have B1 : ((2 : ℚ) ^ (natLog2 q.den : Int)) ≤ (q.den : ℚ) := by
    rw [zpow_natCast]; exact_mod_cast b1
  have B2 : (q.den : ℚ) < (2 : ℚ) ^ ((natLog2 q.den : Int) + 1) := by
    have : ((natLog2 q.den : Int) + 1) = ((natLog2 q.den + 1 : Nat) : Int) := by
      push_cast; ring
    rw [this, zpow_natCast]; exact_mod_cast b2
  unfold expo
  simp only []
  rw [habs]
  clear habs
  generalize (natLog2 q.num.natAbs : Int) = a at A1 A2 ⊢
  generalize (natLog2 q.den : Int) = b at B1 B2 ⊢
  generalize (q.num.natAbs : ℚ) = n at A1 A2 ⊢
  generalize (q.den : ℚ) = d at hdpos B1 B2 ⊢
  have hpa : (0 : ℚ) < 2 ^ a := zpow_pos (by norm_num) a
  have hpb : (0 : ℚ) < 2 ^ b := zpow_pos (by norm_num) b
  -- bounds on the quotient
  have hup : n / d < (2 : ℚ) ^ (a - b + 1) := by
    rw [div_lt_iff₀ hdpos]
    have e : (2 : ℚ) ^ (a - b + 1) * 2 ^ b = 2 ^ (a + 1) := by
      rw [← zpow_add₀ (by norm_num)]; congr 1; ring
    calc n < 2 ^ (a + 1) := A2
      _ = (2 : ℚ) ^ (a - b + 1) * 2 ^ b := e.symm
      _ ≤ (2 : ℚ) ^ (a - b + 1) * d :=
        mul_le_mul_of_nonneg_left B1 (le_of_lt (zpow_pos (by norm_num) _))
  have hlow : (2 : ℚ) ^ (a - b - 1) < n / d := by
    rw [lt_div_iff₀ hdpos]
    have e : (2 : ℚ) ^ (a - b - 1) * 2 ^ (b + 1) = 2 ^ a := by
      rw [← zpow_add₀ (by norm_num)]; congr 1; ring
    calc (2 : ℚ) ^ (a - b - 1) * d < (2 : ℚ) ^ (a - b - 1) * 2 ^ (b + 1) :=
        mul_lt_mul_of_pos_left B2 (zpow_pos (by norm_num) _)
      _ = 2 ^ a := e
      _ ≤ n := A1
  by_cases hc : pow2 (a - b) ≤ n / d
  · rw [if_pos hc]
    exact ⟨hc, by rw [pow2_eq]; exact hup⟩
  · rw [if_neg hc]
    refine ⟨by rw [pow2_eq]; exact le_of_lt hlow, ?_⟩
    have : a - b - 1 + 1 = a - b := by ring
    rw [this]
    exact not_le.1 hc

theorem roundEven_bounds (x : ℚ) : ⌊x⌋ ≤ roundEven x ∧ roundEven x ≤ ⌊x⌋ + 1 := by
  unfold roundEven
  split_ifs <;> omega

theorem roundEven_intCast (n : Int) : roundEven (n : ℚ) = n := by
  unfold roundEven
  rw [Int.floor_intCast, sub_self, if_pos (by norm_num)]

theorem roundEven_mono (x y : ℚ) (h : x ≤ y) : roundEven x ≤ roundEven y := by
  have hf : ⌊x⌋ ≤ ⌊y⌋ := Int.floor_mono h
  rcases lt_or_eq_of_le hf with hlt | heq
  · have h1 := (roundEven_bounds x).2
    have h2 := (roundEven_bounds y).1
    omega
  · unfold roundEven
    rw [← heq]
    have hxy : x - ⌊x⌋ ≤ y - ⌊x⌋ := by linarith
    split_ifs <;> first | omega | (exfalso; linarith)

theorem roundEven_le_intCast (x : ℚ) (n : Int) (h : x ≤ n) : roundEven x ≤ n := by
  have := roundEven_mono x n h
  rwa [roundEven_intCast] at this

theorem intCast_le_roundEven (x : ℚ) (n : Int) (h : (n : ℚ) ≤ x) : n ≤ roundEven x := by
  have := roundEven_mono n x h
  rwa [roundEven_intCast] at this

theorem f32_nonneg (q : ℚ) (h : 0 ≤ q) : 0 ≤ f32 q := by
  unfold f32
  have hu := pow2_pos (ulpExp q)
  have hr : (0 : Int) ≤ roundEven (q / pow2 (ulpExp q)) :=
    intCast_le_roundEven _ 0 (by simpa using div_nonneg h (le_of_lt hu))
  exact mul_nonneg (by exact_mod_cast hr) (le_of_lt hu)

theorem f32_nonpos (q : ℚ) (h : q ≤ 0) : f32 q ≤ 0 := by
  unfold f32
  have hu := pow2_pos (ulpExp q)
  have hr : roundEven (q / pow2 (ulpExp q)) ≤ (0 : Int) :=
    roundEven_le_intCast _ 0 (by simpa using div_nonpos_of_nonpos_of_nonneg h (le_of_lt hu))
  exact mul_nonpos_of_nonpos_of_nonneg (by exact_mod_cast hr) (le_of_lt hu)

theorem f32_mono_of_ulpExp_eq (q1 q2 : ℚ) (hk : ulpExp q1 = ulpExp q2) (h : q1 ≤ q2) :
    f32 q1 ≤ f32 q2 := by
  unfold f32
  rw [hk]
  have hu := pow2_pos (ulpExp q2)
  have hr := roundEven_mono _ _ (div_le_div_of_nonneg_right h (le_of_lt hu))
  exact mul_le_mul_of_nonneg_right (by exact_mod_cast hr) (le_of_lt hu)

theorem pow2_24 : pow2 24 = 16777216 := by
  rw [pow2_eq]
  norm_num

theorem pow2_23 : pow2 23 = 8388608 := by
  rw [pow2_eq]
  norm_num

/-- A value of magnitude below `2 ^ (k + 24)`, `k` its unit exponent, rounds to a
magnitude of at most `2 ^ (k + 24)`. -/
theorem abs_f32_le (q : ℚ) (hq : q ≠ 0) :
    -pow2 (ulpExp q + 24) ≤ f32 q ∧ f32 q ≤ pow2 (ulpExp q + 24) := by
  have hu := pow2_pos (ulpExp q)
  have hlt : |q| < pow2 (ulpExp q + 24) := by
    refine lt_of_lt_of_le (expo_spec q hq).2 (pow2_le _ _ ?_)
    unfold ulpExp
    have := le_max_left (expo q) (-126)
    omega
  rw [pow2_add, pow2_24] at hlt ⊢
  obtain ⟨h1, h2⟩ := abs_lt.1 hlt
  unfold f32
  have hr1 : (-16777216 : Int) ≤ roundEven (q / pow2 (ulpExp q)) := by
    apply intCast_le_roundEven
    rw [le_div_iff₀ hu]
    push_cast
    linarith
  have hr2 : roundEven (q / pow2 (ulpExp q)) ≤ (16777216 : Int) := by
    apply roundEven_le_intCast
    rw [div_le_iff₀ hu]
    push_cast
    linarith
  have hr1' : ((-16777216 : Int) : ℚ) ≤ (roundEven (q / pow2 (ulpExp q)) : ℚ) := by
    exact_mod_cast hr1
  have hr2' : (roundEven (q / pow2 (ulpExp q)) : ℚ) ≤ ((16777216 : Int) : ℚ) := by
    exact_mod_cast hr2
  push_cast at hr1' hr2' ⊢
  constructor
  · nlinarith
  · nlinarith

/-- A normal value `q > 0`, of unit exponent `k`, rounds to at least `2 ^ (k + 23)`. -/
theorem le_f32_of_pos (q : ℚ) (hq : 0 < q) (hn : -126 ≤ expo q) :
    pow2 (ulpExp q + 23) ≤ f32 q := by
  have hu := pow2_pos (ulpExp q)
  have hk : ulpExp q + 23 = expo q := by
    unfold ulpExp
    rw [max_eq_left hn]
    ring
  have hle : pow2 (ulpExp q + 23) ≤ q := by
    rw [hk]
    have := (expo_spec q (ne_of_gt hq)).1
    rwa [abs_of_pos hq] at this
  rw [pow2_add, pow2_23] at hle ⊢
  unfold f32
  have hr : (8388608 : Int) ≤ roundEven (q / pow2 (ulpExp q)) := by
    apply intCast_le_roundEven
    rw [le_div_iff₀ hu]
    push_cast
    linarith
  have hr' : ((8388608 : Int) : ℚ) ≤ (roundEven (q / pow2 (ulpExp q)) : ℚ) := by
    exact_mod_cast hr
  push_cast at hr'
  nlinarith

/-- A normal value `q < 0`, of unit exponent `k`, rounds to at most `-2 ^ (k + 23)`. -/
theorem f32_le_of_neg (q : ℚ) (hq : q < 0) (hn : -126 ≤ expo q) :
    f32 q ≤ -pow2 (ulpExp q + 23) := by
  have hu := pow2_pos (ulpExp q)
  have hk : ulpExp q + 23 = expo q := by
    unfold ulpExp
    rw [max_eq_left hn]
    ring
  have hle : q ≤ -pow2 (ulpExp q + 23) := by
    rw [hk]
    have := (expo_spec q (ne_of_lt hq)).1
    rw [abs_of_neg hq] at this
    linarith
  rw [pow2_add, pow2_23] at hle ⊢
  unfold f32
  have hr : roundEven (q / pow2 (ulpExp q)) ≤ (-8388608 : Int) := by
    apply roundEven_le_intCast
    rw [div_le_iff₀ hu]
    push_cast
    linarith
  have hr' : (roundEven (q / pow2 (ulpExp q)) : ℚ) ≤ ((-8388608 : Int) : ℚ) := by
    exact_mod_cast hr
  push_cast at hr' ⊢
  nlinarith

theorem expo_le_of_abs_le (q1 q2 : ℚ) (h1 : q1 ≠ 0) (h2 : q2 ≠ 0) (h : |q1| ≤ |q2|) :
    expo q1 ≤ expo q2 := by
  have a := (expo_spec q1 h1).1
  have b := (expo_spec q2 h2).2
  have : pow2 (expo q1) < pow2 (expo q2 + 1) := lt_of_le_of_lt (le_trans a h) b
  rw [pow2_lt_iff] at this
  omega

/-- Rounding to binary32 is monotone. -/
theorem f32_mono (q1 q2 : ℚ) (h : q1 ≤ q2) : f32 q1 ≤ f32 q2 := by
  rcases lt_trichotomy q1 0 with n1 | z1 | p1
  · rcases lt_or_le q2 0 with n2 | p2
    · -- both negative
      have he : expo q2 ≤ expo q1 := expo_le_of_abs_le q2 q1 (ne_of_lt n2) (ne_of_lt n1)
        (by rw [abs_of_neg n1, abs_of_neg n2]; linarith)
      have hk : ulpExp q2 ≤ ulpExp q1 := by
        unfold ulpExp
        have := max_le_max he (le_refl (-126 : Int))
        omega
      rcases lt_or_eq_of_le hk with hlt | heq
      · have hn : -126 ≤ expo q1 := by
          by_contra hc
          unfold ulpExp at hlt
          rw [max_eq_right (by omega : expo q1 ≤ -126)] at hlt
          have := le_max_right (expo q2) (-126)
          omega
        have a := f32_le_of_neg q1 n1 hn
        have b := (abs_f32_le q2 (ne_of_lt n2)).1
        have c : pow2 (ulpExp q2 + 24) ≤ pow2 (ulpExp q1 + 23) := pow2_le _ _ (by omega)
        linarith
      · exact f32_mono_of_ulpExp_eq q1 q2 heq.symm h
    · exact le_trans (f32_nonpos q1 (le_of_lt n1)) (f32_nonneg q2 p2)
  · subst z1
    exact le_trans (f32_nonpos 0 (le_refl 0)) (f32_nonneg q2 h)
  · have p2 : 0 < q2 := lt_of_lt_of_le p1 h
    have he : expo q1 ≤ expo q2 := expo_le_of_abs_le q1 q2 (ne_of_gt p1) (ne_of_gt p2)
      (by rw [abs_of_pos p1, abs_of_pos p2]; exact h)
    have hk : ulpExp q1 ≤ ulpExp q2 := by
      unfold ulpExp
      have := max_le_max he (le_refl (-126 : Int))
      omega
    rcases lt_or_eq_of_le hk with hlt | heq
    · have hn : -126 ≤ expo q2 := by
        by_contra hc
        unfold ulpExp at hlt
        rw [max_eq_right (by omega : expo q2 ≤ -126)] at hlt
        have := le_max_right (expo q1) (-126)
        omega
      have a := le_f32_of_pos q2 p2 hn
      have b := (abs_f32_le q1 (ne_of_gt p1)).2
      have c : pow2 (ulpExp q1 + 24) ≤ pow2 (ulpExp q2 + 23) := pow2_le _ _ (by omega)
      linarith
    · exact f32_mono_of_ulpExp_eq q1 q2 heq h

theorem f32_eq_self_of_int (q : ℚ) (m : Int) (h : q / pow2 (ulpExp q) = m) : f32 q = q := by
  unfold f32
  rw [h, roundEven_intCast, ← h]
  exact div_mul_cancel₀ q (ne_of_gt (pow2_pos _))

/-- An integer of magnitude below `2 ^ 24` is a binary32 number: converting it to `float`
is exact. -/
theorem f32_intCast (n : Int) (h : |n| < 16777216) : f32 (n : ℚ) = n := by
  by_cases hn : n = 0
  · subst hn
    unfold f32
    simp [roundEven_intCast]
    left
    have := roundEven_intCast 0
    simpa using this
  have hq : (n : ℚ) ≠ 0 := by exact_mod_cast hn
  obtain ⟨s1, s2⟩ := expo_spec (n : ℚ) hq
  have habs : |(n : ℚ)| = ((|n| : Int) : ℚ) := by push_cast; rfl
  have hlt : |(n : ℚ)| < pow2 24 := by
    rw [pow2_24, habs]
    exact_mod_cast h
  have hge : pow2 0 ≤ |(n : ℚ)| := by
    have h1 : (1 : Int) ≤ |n| := Int.one_le_abs hn
    have : pow2 0 = 1 := by rw [pow2_eq]; norm_num
    rw [this, habs]
    exact_mod_cast h1
  have e1 : expo (n : ℚ) < 24 := (pow2_lt_iff _ _).1 (lt_of_le_of_lt s1 hlt)
  have e2 : 0 < expo (n : ℚ) + 1 := (pow2_lt_iff _ _).1 (lt_of_le_of_lt hge s2)
  have hk : ulpExp (n : ℚ) = -((23 - expo (n : ℚ)).toNat : Int) := by
    unfold ulpExp
    rw [max_eq_left (by omega)]
    omega
  apply f32_eq_self_of_int (n : ℚ) (n * 2 ^ (23 - expo (n : ℚ)).toNat)
  rw [hk, pow2_eq, zpow_neg, zpow_natCast, div_inv_eq_mul]
  push_cast
  rfl

/-! ## Shading (claims on lines 90-92) -/

section Shading

variable {α : Type} [LinearOrderedField α] [FloorRing α]

/-- C1: for every interpolated depth, also one before the camera, the index with which
line 92 reads the shade ramp lies in `[0, 7]` (the ramp has nine glyphs), and the read
`SHADES[shadeIdx]` is inside the array. -/
theorem shade_index_in_bounds (depth : α) :
    0 ≤ shadeIdx depth ∧ shadeIdx depth ≤ 7 ∧
      (shadeIdx depth).toNat < SHADES.length - 1 ∧
      ∃ c, idx? SHADES (shadeIdx depth) = some c := by
  have h : shadeIdx depth = 0 := shadeIdx_eq_zero depth
  rw [h]
  exact ⟨le_refl 0, by decide, by decide, '.', rfl⟩

end Shading

/-- C2 (the code departs from the claim): at depth 5 the specification's index is 2 and
its glyph `-`, while lines 90-92 compute index 0 and the glyph `.`; the call
`clamp(shadeIdx, 0, sizeof(SHADES) - 2)` passes the value where `clamp` expects `min`, so
that it is the constant 8 that is clamped, into `[shadeIdx, 0]`.  Accordingly
`drawTriangle` on the first triangle of the front face, of depth 5, and fresh buffers
stores depth 5 and the glyph `.` at the centre of the screen. -/
theorem shade_glyph_at_depth_five :
    specShadeIdx (5 : ℚ) = 2 ∧ idx? SHADES (specShadeIdx (5 : ℚ)) = some '-' ∧
    shadeIdx (5 : ℚ) = 0 ∧ shadeChar (5 : ℚ) = some '.' ∧
    shadeIdx (5 : ℚ) = stdMin (stdMax 8 (toInt (((5 : ℚ) - CAMERA_DISTANCE) * 2))) 0 ∧
    ∃ b, drawTriangle freshBuffers frontTriangle.1 frontTriangle.2.1 frontTriangle.2.2
        = some b ∧
      at2? b.zbuffer 20 40 = some 5 ∧ at2? b.screen 20 40 = some '.' := by
  have h1 : specShadeIdx (5 : ℚ) = 2 := by
    unfold specShadeIdx CAMERA_DISTANCE clamp stdMin stdMax
    norm_num
  refine ⟨h1, ?_, shadeIdx_eq_zero _, shadeChar_eq _, rfl, ?_⟩
  · rw [h1]
    rfl
  · have hnd : edgeInt frontTriangle.1 frontTriangle.2.1 frontTriangle.2.2 ≠ 0 := by decide
    obtain ⟨b, hb, hwf, hcell⟩ := drawTriangle_cells frontTriangle.1 frontTriangle.2.1
      frontTriangle.2.2 freshBuffers freshBuffers_WF hnd
    have hin : insideTest frontTriangle.1 frontTriangle.2.1 frontTriangle.2.2 40 20 := by
      rw [insideTest_iff]
      decide
    have h := hcell (20, 40) (by decide)
    rw [cellAt_freshBuffers (20, 40) (by decide),
      newCell_const _ _ _ 5 hnd rfl rfl rfl, if_pos ⟨hin, by norm_num [farDepth]⟩] at h
    refine ⟨b, hb, ?_, ?_⟩
    · rw [at2?_zbuffer b hwf 20 40 (by decide)]
      exact congrArg some (congrArg Prod.fst h)
    · rw [at2?_screen b hwf 20 40 (by decide)]
      exact congrArg some (congrArg Prod.snd h)

/-! ## The end-to-end scenario: the unrotated cube -/

section Scenario

variable {α : Type} [LinearOrderedField α] [FloorRing α]

/-- C4: with both angles zero and the default constants, the four vertices of the front
face `{4, 5, 6, 7}` are projected to `(35, 22)`, `(44, 22)`, `(44, 17)` and `(35, 17)`,
all at depth 5, and drawing the two fan triangles of the face into fresh buffers returns
a frame buffer in which the centre `(x, y) = (40, 20)` is not blank, every cell that is
not blank carries the one glyph `.`, and the cells that are not blank are those of the
rectangle `35 ≤ x ≤ 44`, `17 ≤ y ≤ 22`.  The library functions enter through
`cos 0 = 1`, `sin 0 = 0` and the value of `fovScale`, taken in `(1, 1.04]`.  Nothing is
stated of the depths stored, which lines 80-84 round. -/
theorem front_face_filled (cos sin tan : α → α) (hc : cos 0 = 1) (hs : sin 0 = 0)
    (hf1 : 1 < fovScale tan) (hf2 : fovScale tan ≤ 26 / 25) :
    idx? cube_faces 1 = some [4, 5, 6, 7] ∧
    (projectedVertices cos sin tan 0 0).drop 4 =
      [⟨35, 22, 5⟩, ⟨44, 22, 5⟩, ⟨44, 17, 5⟩, ⟨35, 17, 5⟩] ∧
    ∃ b, drawFace (projectedVertices cos sin tan 0 0) freshBuffers [4, 5, 6, 7] = some b ∧
      at2? b.screen 20 40 = some '.' ∧
      ∀ y x : Int, onScreen y x →
        ∃ c, at2? b.screen y x = some c ∧
          ((c = '.' ∧ (35 ≤ x ∧ x ≤ 44 ∧ 17 ≤ y ∧ y ≤ 22)) ∨
            (c = ' ' ∧ ¬ (35 ≤ x ∧ x ≤ 44 ∧ 17 ≤ y ∧ y ≤ 22))) := by
  have hpv := projectedVertices_zero cos sin tan hc hs hf1 hf2
  refine ⟨rfl, by rw [hpv]; rfl, ?_⟩
  have hfar : (5 : α) < farDepth := by unfold farDepth; norm_num
  obtain ⟨b, hb, hwf, hcell⟩ := face_cells (⟨35, 22, 5⟩ : Point2D α) ⟨44, 22, 5⟩ ⟨44, 17, 5⟩
    ⟨35, 17, 5⟩ 5 hfar (by simp [edgeInt]) (by simp [edgeInt]) rfl rfl rfl rfl
  have hall : ∀ y x : Int, onScreen y x →
      ∃ c, at2? b.screen y x = some c ∧
        ((c = '.' ∧ (35 ≤ x ∧ x ≤ 44 ∧ 17 ≤ y ∧ y ≤ 22)) ∨
          (c = ' ' ∧ ¬ (35 ≤ x ∧ x ≤ 44 ∧ 17 ≤ y ∧ y ≤ 22))) := by
    intro y x hyx
    refine ⟨chAt b y x, at2?_screen b hwf y x hyx, ?_⟩
    have h := hcell (y, x) hyx
    simp only [front_inside_iff] at h
    by_cases hr : 35 ≤ x ∧ x ≤ 44 ∧ 17 ≤ y ∧ y ≤ 22
    · rw [if_pos hr] at h
      exact Or.inl ⟨congrArg Prod.snd h, hr⟩
    · rw [if_neg hr] at h
      exact Or.inr ⟨congrArg Prod.snd h, hr⟩
  refine ⟨b, ?_, ?_, hall⟩
  · rw [drawFace_front _ _ _ _ _ _ _ _ _ hpv]
    exact hb
  · obtain ⟨c, h1, h2 | h2⟩ := hall 20 40 (by decide)
    · rw [h1, h2.1]
    · exact absurd (by decide) h2.2

/-- The hypotheses on the library functions hold for their Taylor polynomials over the
rationals, and the front face drawn with them fills the centre of the screen. -/
theorem front_face_filled_witness :
    (cosApprox 0 = 1 ∧ sinApprox 0 = 0 ∧ 1 < fovScale tanApprox ∧
      fovScale tanApprox ≤ 26 / 25) ∧
    ∃ b, drawFace (projectedVertices cosApprox sinApprox tanApprox 0 0) freshBuffers
        [4, 5, 6, 7] = some b ∧ at2? b.screen 20 40 = some '.' := by
  have h1 : cosApprox 0 = 1 := by norm_num [cosApprox]
  have h2 : sinApprox 0 = 0 := by norm_num [sinApprox]
  have h3 : 1 < fovScale tanApprox := by norm_num [fovScale, tanApprox, FOV]
  have h4 : fovScale tanApprox ≤ 26 / 25 := by norm_num [fovScale, tanApprox, FOV]
  obtain ⟨-, -, b, hb, hcentre, -⟩ :=
    front_face_filled cosApprox sinApprox tanApprox h1 h2 h3 h4
  exact ⟨⟨h1, h2, h3, h4⟩, b, hb, hcentre⟩

/-- C3 (the code departs from the claim): with both angles zero and the default
constants, the front face `{4, 5, 6, 7}` drawn alone into fresh buffers and the back face
`{0, 1, 2, 3}` drawn alone into fresh buffers both write the glyph `.`, the first of the
ramp, and no other: at the centre the front face stores depth 5 and the back face depth 3,
and both store `.`.  The glyph of the front face is not later in the ramp. -/
theorem face_glyphs_coincide (cos sin tan : α → α) (hc : cos 0 = 1) (hs : sin 0 = 0)
    (hf1 : 1 < fovScale tan) (hf2 : fovScale tan ≤ 26 / 25) :
    ∃ bf bb,
      drawFace (projectedVertices cos sin tan 0 0) freshBuffers [4, 5, 6, 7] = some bf ∧
      drawFace (projectedVertices cos sin tan 0 0) freshBuffers [0, 1, 2, 3] = some bb ∧
      (∀ y x : Int, onScreen y x →
        at2? bf.screen y x = some ' ' ∨ at2? bf.screen y x = some '.') ∧
      (∀ y x : Int, onScreen y x →
        at2? bb.screen y x = some ' ' ∨ at2? bb.screen y x = some '.') ∧
      at2? bf.zbuffer 20 40 = some 5 ∧ at2? bf.screen 20 40 = some '.' ∧
      at2? bb.zbuffer 20 40 = some 3 ∧ at2? bb.screen 20 40 = some '.' := by
  have hpv := projectedVertices_zero cos sin tan hc hs hf1 hf2
  have hfar5 : (5 : α) < farDepth := by unfold farDepth; norm_num
  have hfar3 : (3 : α) < farDepth := by unfold farDepth; norm_num
  obtain ⟨bf, hbf, hwff, hcf⟩ := face_cells (⟨35, 22, 5⟩ : Point2D α) ⟨44, 22, 5⟩ ⟨44, 17, 5⟩
    ⟨35, 17, 5⟩ 5 hfar5 (by simp [edgeInt]) (by simp [edgeInt]) rfl rfl rfl rfl
  obtain ⟨bb, hbb, hwfb, hcb⟩ := face_cells (⟨31, 24, 3⟩ : Point2D α) ⟨48, 24, 3⟩ ⟨48, 15, 3⟩
    ⟨31, 15, 3⟩ 3 hfar3 (by simp [edgeInt]) (by simp [edgeInt]) rfl rfl rfl rfl
  have hf20 := hcf (20, 40) (by decide)
  have hb20 := hcb (20, 40) (by decide)
  simp only [front_inside_iff] at hf20
  simp only [back_inside_iff] at hb20
  rw [if_pos (by decide)] at hf20 hb20
  refine ⟨bf, bb, ?_, ?_, ?_, ?_, ?_, ?_, ?_, ?_⟩
  · rw [drawFace_front _ _ _ _ _ _ _ _ _ hpv]
    exact hbf
  · rw [drawFace_back _ _ _ _ _ _ _ _ _ hpv]
    exact hbb
  · intro y x hyx
    rw [at2?_screen bf hwff y x hyx]
    have h := congrArg Prod.snd (hcf (y, x) hyx)
    simp only [cellAt] at h
    rw [h]
    split_ifs
    · exact Or.inr rfl
    · exact Or.inl rfl
  · intro y x hyx
    rw [at2?_screen bb hwfb y x hyx]
    have h := congrArg Prod.snd (hcb (y, x) hyx)
    simp only [cellAt] at h
    rw [h]
    split_ifs
    · exact Or.inr rfl
    · exact Or.inl rfl
  · rw [at2?_zbuffer bf hwff 20 40 (by decide)]
    exact congrArg some (congrArg Prod.fst hf20)
  · rw [at2?_screen bf hwff 20 40 (by decide)]
    exact congrArg some (congrArg Prod.snd hf20)
  · rw [at2?_zbuffer bb hwfb 20 40 (by decide)]
    exact congrArg some (congrArg Prod.fst hb20)
  · rw [at2?_screen bb hwfb 20 40 (by decide)]
    exact congrArg some (congrArg Prod.snd hb20)

/-- With the Taylor polynomials over the rationals for the library functions, the front
face and the back face both store `.` at the centre of the screen. -/
theorem face_glyphs_coincide_witness :
    (cosApprox 0 = 1 ∧ sinApprox 0 = 0 ∧ 1 < fovScale tanApprox ∧
      fovScale tanApprox ≤ 26 / 25) ∧
    ∃ bf bb,
      drawFace (projectedVertices cosApprox sinApprox tanApprox 0 0) freshBuffers
        [4, 5, 6, 7] = some bf ∧
      drawFace (projectedVertices cosApprox sinApprox tanApprox 0 0) freshBuffers
        [0, 1, 2, 3] = some bb ∧
      at2? bf.screen 20 40 = some '.' ∧ at2? bb.screen 20 40 = some '.' := by
  have h1 : cosApprox 0 = 1 := by norm_num [cosApprox]
  have h2 : sinApprox 0 = 0 := by norm_num [sinApprox]
  have h3 : 1 < fovScale tanApprox := by norm_num [fovScale, tanApprox, FOV]
  have h4 : fovScale tanApprox ≤ 26 / 25 := by norm_num [fovScale, tanApprox, FOV]
  obtain ⟨bf, bb, e1, e2, -, -, -, e3, -, e4⟩ :=
    face_glyphs_coincide cosApprox sinApprox tanApprox h1 h2 h3 h4
  exact ⟨⟨h1, h2, h3, h4⟩, bf, bb, e1, e2, e3, e4⟩

end Scenario

theorem foldl_min_le {β : Type} [LinearOrder β] (l : List β) (a : β) :
    l.foldl min a ≤ a ∧ (∀ d ∈ l, l.foldl min a ≤ d) ∧ (l.foldl min a = a ∨ l.foldl min a ∈ l) := by
  induction l generalizing a with
  | nil => simp
  | cons d l ih =>
    obtain ⟨h1, h2, h3⟩ := ih (min a d)
    simp only [List.foldl_cons, List.mem_cons, forall_eq_or_imp]
    refine ⟨le_trans h1 (min_le_left a d), ⟨le_trans h1 (min_le_right a d), h2⟩, ?_⟩
    rcases h3 with h3 | h3
    · rw [h3]
      rcases min_choice a d with h | h
      · exact Or.inl h
      · exact Or.inr (Or.inl h)
    · exact Or.inr (Or.inr h3)

/-! ## The depth buffer and the frame buffer over a sequence of triangles -/

section Sequences

variable {α : Type} [LinearOrderedField α] [FloorRing α]

/-- C5, as amended: after `drawTriangle` over any sequence of non-degenerate triangles,
from fresh buffers, the calls return and each cell of the screen holds the minimum of the
far depth `1e9` and of the depths interpolated by the triangles passing the inside test at
that pixel: it is at most the far depth and each of those depths, it is one of them, and
it is the far depth at a pixel no triangle covers. -/
theorem depth_buffer_min (ts : List (Triangle α)) (hts : ∀ t ∈ ts, nonDegenerate t) :
    ∃ b, drawTriangles freshBuffers ts = some b ∧
      ∀ y x : Int, onScreen y x →
        ∃ m, at2? b.zbuffer y x = some m ∧
          m = (coveringDepths ts y x).foldl min farDepth ∧
          m ≤ farDepth ∧ (∀ d ∈ coveringDepths ts y x, m ≤ d) ∧
          (m = farDepth ∨ m ∈ coveringDepths ts y x) ∧
          ((∀ t ∈ ts, ¬ insideTest t.1 t.2.1 t.2.2 x y) → m = farDepth) := by
  obtain ⟨b, h1, hwf, hz⟩ := drawTriangles_depth ts hts freshBuffers freshBuffers_WF
  refine ⟨b, h1, fun y x hyx => ⟨zAt b y x, at2?_zbuffer b hwf y x hyx, ?_⟩⟩
  have hfresh : zAt (freshBuffers : Buffers α) y x = farDepth :=
    congrArg Prod.fst (cellAt_freshBuffers (y, x) hyx)
  have hm := hz y x hyx
  rw [hfresh] at hm
  obtain ⟨h2, h3, h4⟩ := foldl_min_le (coveringDepths ts y x) (farDepth : α)
  rw [hm]
  refine ⟨rfl, h2, h3, h4, fun hno => ?_⟩
  have hnil : coveringDepths ts y x = [] := by
    unfold coveringDepths
    rw [List.map_eq_nil_iff, List.filter_eq_nil_iff]
    intro t ht
    simpa using hno t ht
  rw [hnil]
  rfl

/-- C6: from fresh buffers, after any sequence of calls of `drawTriangle` the calls
return and, at every cell of the screen, the frame buffer holds a blank where the depth
buffer holds the far depth `1e9`, and otherwise the glyph that lines 90-92 compute from
the depth the depth buffer holds. -/
theorem buffers_consistent (ts : List (Triangle α)) :
    ∃ b, drawTriangles freshBuffers ts = some b ∧
      ∀ y x : Int, onScreen y x →
        ∃ z c, at2? b.zbuffer y x = some z ∧ at2? b.screen y x = some c ∧
          ((z = farDepth ∧ c = ' ') ∨ (z ≠ farDepth ∧ shadeChar z = some c)) := by
  obtain ⟨b, h1, hwf, hc⟩ := drawTriangles_consistent ts freshBuffers freshBuffers_WF
    (fun k hk => Or.inl (by rw [cellAt_freshBuffers k hk]; exact ⟨rfl, rfl⟩))
  refine ⟨b, h1, fun y x hyx => ⟨zAt b y x, chAt b y x, at2?_zbuffer b hwf y x hyx,
    at2?_screen b hwf y x hyx, ?_⟩⟩
  rcases hc (y, x) hyx with h | h
  · exact Or.inl h
  · exact Or.inr ⟨ne_of_lt h.1, h.2⟩

end Sequences

/-- The claim C5 as stated fails on a triangle beyond the far depth: `farTriangle` is not
degenerate, it passes the inside test at pixel `(0, 0)` with interpolated depth `2e9`,
and after `drawTriangle` on fresh buffers the cell still holds `1e9`, which is not the
minimum of the depths of the triangles covering it. -/
theorem far_triangle_not_stored :
    nonDegenerate farTriangle ∧
    insideTest farTriangle.1 farTriangle.2.1 farTriangle.2.2 0 0 ∧
    interpDepth farTriangle.1 farTriangle.2.1 farTriangle.2.2 0 0 = 2000000000 ∧
    ∃ b, drawTriangles freshBuffers [farTriangle] = some b ∧
      at2? b.zbuffer 0 0 = some 1000000000 := by
  have hnd : nonDegenerate farTriangle := by decide
  have hd : interpDepth farTriangle.1 farTriangle.2.1 farTriangle.2.2 0 0 = 2000000000 :=
    interpDepth_const _ _ _ 0 0 _ hnd rfl rfl rfl
  refine ⟨hnd, ?_, hd, ?_⟩
  · rw [insideTest_iff]
    decide
  · obtain ⟨b, hb, hwf, hcell⟩ := drawTriangle_cells farTriangle.1 farTriangle.2.1
      farTriangle.2.2 freshBuffers freshBuffers_WF hnd
    refine ⟨b, ?_, ?_⟩
    · rw [drawTriangles_cons, hb]
      rfl
    · rw [at2?_zbuffer b hwf 0 0 (by decide)]
      have h := congrArg Prod.fst (hcell (0, 0) (by decide))
      rw [cellAt_freshBuffers (0, 0) (by decide)] at h
      simp only [cellAt] at h
      rw [h]
      unfold newCell
      rw [hd, if_neg (by unfold farDepth; norm_num)]
      rfl

/-- After `drawTriangle` on the first triangle of the front face, which is not
degenerate, and fresh buffers, the centre cell holds the depth of the triangle, 5. -/
theorem depth_buffer_min_witness :
    (∀ t ∈ [frontTriangle], nonDegenerate t) ∧
    ∃ b, drawTriangles freshBuffers [frontTriangle] = some b ∧
      at2? b.zbuffer 20 40 = some 5 := by
  have hnd : ∀ t ∈ [frontTriangle], nonDegenerate t := by
    intro t ht
    rw [List.mem_singleton] at ht
    subst ht
    decide
  refine ⟨hnd, ?_⟩
  obtain ⟨b, hb, hcell⟩ := depth_buffer_min [frontTriangle] hnd
  refine ⟨b, hb, ?_⟩
  obtain ⟨m, hm, heq, -⟩ := hcell 20 40 (by decide)
  have hin : insideTest frontTriangle.1 frontTriangle.2.1 frontTriangle.2.2 40 20 := by
    rw [insideTest_iff]
    decide
  have hd : interpDepth frontTriangle.1 frontTriangle.2.1 frontTriangle.2.2 40 20 = 5 :=
    interpDepth_const _ _ _ 40 20 _ (by decide) rfl rfl rfl
  have hcov : coveringDepths [frontTriangle] 20 40 = [5] := by
    simp [coveringDepths, List.filter_cons, hin, hd]
  rw [hm, heq, hcov]
  norm_num [farDepth]

/-! ## The inside test at the centroid -/

/-- The claim C7 as stated fails on `thinTriangle`, which is not degenerate: its centroid
`(101/3, 1/3)` rounds to the pixel `(34, 0)`, where `w0 = 33` and `w1 = -34` have opposite
signs; and no pixel within one unit of the centroid in both coordinates passes the inside
test, whatever the rounding. -/
theorem centroid_pixel_outside :
    nonDegenerate thinTriangle ∧
    centroidPixel thinTriangle.1 thinTriangle.2.1 thinTriangle.2.2 = (34, 0) ∧
    edgeInt thinTriangle.2.1 thinTriangle.2.2 (pixelPoint 34 0 : Point2D ℚ) = 33 ∧
    edgeInt thinTriangle.2.2 thinTriangle.1 (pixelPoint 34 0 : Point2D ℚ) = -34 ∧
    ¬ insideTest thinTriangle.1 thinTriangle.2.1 thinTriangle.2.2 34 0 ∧
    ∀ x y : Int, 98 < 3 * x → 3 * x < 104 → -2 < 3 * y → 3 * y < 4 →
      ¬ insideTest thinTriangle.1 thinTriangle.2.1 thinTriangle.2.2 x y := by
  have hall : ∀ x y : Int, 98 < 3 * x → 3 * x < 104 → -2 < 3 * y → 3 * y < 4 →
      ¬ insideTest thinTriangle.1 thinTriangle.2.1 thinTriangle.2.2 x y := by
    intro x y h1 h2 h3 h4
    rw [insideTest_iff]
    simp only [edgeInt, pixelPoint, thinTriangle]
    omega
  exact ⟨by decide, by decide, by decide, by decide,
    hall 34 0 (by decide) (by decide) (by decide) (by decide), hall⟩

section Centroid

variable {α : Type} [LinearOrderedField α] [FloorRing α]

/-- C7, as amended: when each edge of the triangle has `|dx| + |dy| ≤ |area|`, `dx` and
`dy` the differences of its end points and `area` the value of line 67, the pixel at the
centroid, each coordinate rounded to the nearest integer, passes the inside test of
`drawTriangle`; rounding moves each coordinate by a third at most. -/
theorem centroid_pixel_inside (p0 p1 p2 : Point2D α)
    (h01 : |p1.x - p0.x| + |p1.y - p0.y| ≤ |edgeInt p0 p1 p2|)
    (h12 : |p2.x - p1.x| + |p2.y - p1.y| ≤ |edgeInt p0 p1 p2|)
    (h20 : |p0.x - p2.x| + |p0.y - p2.y| ≤ |edgeInt p0 p1 p2|) :
    insideTest p0 p1 p2 (centroidPixel p0 p1 p2).1 (centroidPixel p0 p1 p2).2 ∧
    |3 * (centroidPixel p0 p1 p2).1 - (p0.x + p1.x + p2.x)| ≤ 1 ∧
    |3 * (centroidPixel p0 p1 p2).2 - (p0.y + p1.y + p2.y)| ≤ 1 := by
  have hcx : 3 * (centroidPixel p0 p1 p2).1 - (p0.x + p1.x + p2.x) = -1 ∨
      3 * (centroidPixel p0 p1 p2).1 - (p0.x + p1.x + p2.x) = 0 ∨
      3 * (centroidPixel p0 p1 p2).1 - (p0.x + p1.x + p2.x) = 1 := by
    simp only [centroidPixel, roundedThird]
    omega
  have hcy : 3 * (centroidPixel p0 p1 p2).2 - (p0.y + p1.y + p2.y) = -1 ∨
      3 * (centroidPixel p0 p1 p2).2 - (p0.y + p1.y + p2.y) = 0 ∨
      3 * (centroidPixel p0 p1 p2).2 - (p0.y + p1.y + p2.y) = 1 := by
    simp only [centroidPixel, roundedThird]
    omega
  generalize (centroidPixel p0 p1 p2).1 = cx at hcx ⊢
  generalize (centroidPixel p0 p1 p2).2 = cy at hcy ⊢
  have e0 : 3 * edgeInt p1 p2 (pixelPoint cx cy : Point2D α) = edgeInt p0 p1 p2
      + (3 * cx - (p0.x + p1.x + p2.x)) * (p2.y - p1.y)
      - (3 * cy - (p0.y + p1.y + p2.y)) * (p2.x - p1.x) := by
    simp only [edgeInt, pixelPoint]
    ring
  have e1 : 3 * edgeInt p2 p0 (pixelPoint cx cy : Point2D α) = edgeInt p0 p1 p2
      + (3 * cx - (p0.x + p1.x + p2.x)) * (p0.y - p2.y)
      - (3 * cy - (p0.y + p1.y + p2.y)) * (p0.x - p2.x) := by
    simp only [edgeInt, pixelPoint]
    ring
  have e2 : 3 * edgeInt p0 p1 (pixelPoint cx cy : Point2D α) = edgeInt p0 p1 p2
      + (3 * cx - (p0.x + p1.x + p2.x)) * (p1.y - p0.y)
      - (3 * cy - (p0.y + p1.y + p2.y)) * (p1.x - p0.x) := by
    simp only [edgeInt, pixelPoint]
    ring
  refine ⟨?_, ?_, ?_⟩
  · rw [insideTest_iff]
    generalize edgeInt p1 p2 (pixelPoint cx cy : Point2D α) = w0 at e0 ⊢
    generalize edgeInt p2 p0 (pixelPoint cx cy : Point2D α) = w1 at e1 ⊢
    generalize edgeInt p0 p1 (pixelPoint cx cy : Point2D α) = w2 at e2 ⊢
    generalize edgeInt p0 p1 p2 = a at h01 h12 h20 e0 e1 e2
    generalize 3 * cx - (p0.x + p1.x + p2.x) = dx at hcx e0 e1 e2
    generalize 3 * cy - (p0.y + p1.y + p2.y) = dy at hcy e0 e1 e2
    have lin : ∀ u v b : Int, |u| + |v| ≤ b →
        u + v ≤ b ∧ u - v ≤ b ∧ -u + v ≤ b ∧ -u - v ≤ b := by
      intro u v b h
      have h1 := le_abs_self u
      have h2 := neg_abs_le u
      have h3 := le_abs_self v
      have h4 := neg_abs_le v
      refine ⟨?_, ?_, ?_, ?_⟩ <;> linarith
    obtain ⟨a1, a2, a3, a4⟩ := lin _ _ _ h01
    obtain ⟨b1, b2, b3, b4⟩ := lin _ _ _ h12
    obtain ⟨c1, c2, c3, c4⟩ := lin _ _ _ h20
    clear h01 h12 h20 lin
    rcases abs_cases a with ⟨ha, hs⟩ | ⟨ha, hs⟩ <;>
      rw [ha] at a1 a2 a3 a4 b1 b2 b3 b4 c1 c2 c3 c4 <;>
      rcases hcx with rfl | rfl | rfl <;> rcases hcy with rfl | rfl | rfl <;>
      simp only [neg_mul, one_mul, zero_mul, sub_zero, add_zero, sub_neg_eq_add]
        at e0 e1 e2 <;>
      omega
  · rcases hcx with h | h | h <;> rw [h] <;> decide
  · rcases hcy with h | h | h <;> rw [h] <;> decide

end Centroid

/-- The first triangle of the front face, `(35, 22)`, `(44, 22)`, `(44, 17)`, has
`area = 45` and edges of `|dx| + |dy|` 9, 5 and 14; its centroid `(41, 61/3)` rounds to
the pixel `(41, 20)`, which passes the inside test. -/
theorem centroid_pixel_inside_witness :
    (|frontTriangle.2.1.x - frontTriangle.1.x| + |frontTriangle.2.1.y - frontTriangle.1.y|
        ≤ |edgeInt frontTriangle.1 frontTriangle.2.1 frontTriangle.2.2| ∧
      |frontTriangle.2.2.x - frontTriangle.2.1.x|
        + |frontTriangle.2.2.y - frontTriangle.2.1.y|
        ≤ |edgeInt frontTriangle.1 frontTriangle.2.1 frontTriangle.2.2| ∧
      |frontTriangle.1.x - frontTriangle.2.2.x| + |frontTriangle.1.y - frontTriangle.2.2.y|
        ≤ |edgeInt frontTriangle.1 frontTriangle.2.1 frontTriangle.2.2|) ∧
    centroidPixel frontTriangle.1 frontTriangle.2.1 frontTriangle.2.2 = (41, 20) ∧
    insideTest frontTriangle.1 frontTriangle.2.1 frontTriangle.2.2
      (centroidPixel frontTriangle.1 frontTriangle.2.1 frontTriangle.2.2).1
      (centroidPixel frontTriangle.1 frontTriangle.2.1 frontTriangle.2.2).2 :=
  ⟨⟨by decide, by decide, by decide⟩, by decide,
    (centroid_pixel_inside frontTriangle.1 frontTriangle.2.1 frontTriangle.2.2
      (by decide) (by decide) (by decide)).1⟩

/-! ## Rotation and projection over the reals -/

theorem normSq_rotate (v : Point3D ℝ) (angleX angleY : ℝ) :
    normSq (rotateY Real.cos Real.sin (rotateX Real.cos Real.sin v angleX) angleY)
      = normSq v := by
  have h1 := Real.sin_sq_add_cos_sq angleX
  have h2 := Real.sin_sq_add_cos_sq angleY
  simp only [normSq, rotateX, rotateY]
  linear_combination
    (v.x ^ 2 + (v.y * Real.sin angleX + v.z * Real.cos angleX) ^ 2) * h2
      + (v.y ^ 2 + v.z ^ 2) * h1

theorem normSq_cube_vertex (v : Point3D ℝ) (hv : v ∈ (cube_vertices : List (Point3D ℝ))) :
    normSq v = 3 := by
  simp only [cube_vertices, List.mem_cons, List.mem_singleton, List.not_mem_nil, or_false] at hv
  rcases hv with rfl | rfl | rfl | rfl | rfl | rfl | rfl | rfl <;> norm_num [normSq]

/-- C8: for all rotation angles and each of the 8 vertices of the cube, the depth
`z + CAMERA_DISTANCE` that `project` computes for the vertex rotated about X then Y is at
least `4 - √3`, hence positive, and the divisor of `fovScale / z` is not zero. -/
theorem camera_depth_positive (tan : ℝ → ℝ) (angleX angleY : ℝ) (v : Point3D ℝ)
    (hv : v ∈ (cube_vertices : List (Point3D ℝ))) :
    4 - Real.sqrt 3 ≤
      (project tan (rotateY Real.cos Real.sin (rotateX Real.cos Real.sin v angleX)
        angleY)).depth ∧
    0 < (project tan (rotateY Real.cos Real.sin (rotateX Real.cos Real.sin v angleX)
        angleY)).depth ∧
    cameraZ (rotateY Real.cos Real.sin (rotateX Real.cos Real.sin v angleX) angleY) ≠ 0 := by
  have hn := normSq_rotate v angleX angleY
  rw [normSq_cube_vertex v hv] at hn
  generalize rotateY Real.cos Real.sin (rotateX Real.cos Real.sin v angleX) angleY = r at hn ⊢
  have hd : (project tan r).depth = r.z + 4 := rfl
  have hz : r.z ^ 2 ≤ 3 := by
    unfold normSq at hn
    nlinarith [sq_nonneg r.x, sq_nonneg r.y]
  have habs : |r.z| ≤ Real.sqrt 3 := Real.abs_le_sqrt hz
  have hlow : -Real.sqrt 3 ≤ r.z := (abs_le.1 habs).1
  have hsqrt : Real.sqrt 3 < 4 := by
    rw [Real.sqrt_lt' (by norm_num)]
    norm_num
  have hc : cameraZ r = r.z + 4 := rfl
  rw [hd, hc]
  refine ⟨by linarith, by linarith, by linarith⟩

/-- The vertex `(-1, -1, -1)` of the cube, unrotated, has a positive camera-space
depth. -/
theorem camera_depth_positive_witness :
    (⟨-1, -1, -1⟩ : Point3D ℝ) ∈ (cube_vertices : List (Point3D ℝ)) ∧
    0 < (project Real.tan (rotateY Real.cos Real.sin
      (rotateX Real.cos Real.sin (⟨-1, -1, -1⟩ : Point3D ℝ) 0) 0)).depth :=
  ⟨by simp [cube_vertices],
    (camera_depth_positive Real.tan 0 0 ⟨-1, -1, -1⟩ (by simp [cube_vertices])).2.1⟩

/-- C9: over the reals, for every point and all angles, `rotateX` followed by `rotateY`
preserves the squared Euclidean norm `x² + y² + z²`. -/
theorem rotation_preserves_norm (v : Point3D ℝ) (angleX angleY : ℝ) :
    (rotateY Real.cos Real.sin (rotateX Real.cos Real.sin v angleX) angleY).x ^ 2
      + (rotateY Real.cos Real.sin (rotateX Real.cos Real.sin v angleX) angleY).y ^ 2
      + (rotateY Real.cos Real.sin (rotateX Real.cos Real.sin v angleX) angleY).z ^ 2
      = v.x ^ 2 + v.y ^ 2 + v.z ^ 2 :=
  normSq_rotate v angleX angleY

section Scale

variable {α : Type} [LinearOrderedField α]

/-- In exact arithmetic, over any ordered field, the scale of line 108 is strictly
decreasing in the depth over the positive depths, for a positive `fovScale`. -/
theorem projScale_strictAnti (f d1 d2 : α) (hf : 0 < f) (h1 : 0 < d1) (h2 : d1 < d2) :
    projScale f d2 < projScale f d1 := by
  unfold projScale CUBE_SIZE
  exact mul_lt_mul_of_pos_right (div_lt_div_of_pos_left hf h1 h2) (by norm_num)

end Scale

/-- As computed in binary32, the scale of line 108 does not increase with the depth. -/
theorem projScale32_antitone (f d1 d2 : ℚ) (hf : 0 < f) (h1 : 0 < d1) (h2 : d1 ≤ d2) :
    projScale32 f d2 ≤ projScale32 f d1 := by
  unfold projScale32 CUBE_SIZE
  apply f32_mono
  have h := f32_mono _ _ (div_le_div_of_nonneg_left (le_of_lt hf) h1 h2)
  linarith

/-- C10, as amended: for a positive `fovScale` and depths `0 < d1 < d2`, the scale
`fovScale / z * CUBE_SIZE` of `project` is strictly smaller at `d2` than at `d1` in exact
arithmetic, and not greater at `d2` than at `d1` as line 108 computes it in binary32,
where the two scales can coincide. -/
theorem scale_decreasing (f d1 d2 : ℚ) (hf : 0 < f) (h1 : 0 < d1) (h2 : d1 < d2) :
    projScale f d2 < projScale f d1 ∧ projScale32 f d2 ≤ projScale32 f d1 :=
  ⟨projScale_strictAnti f d1 d2 hf h1 h2, projScale32_antitone f d1 d2 hf h1 (le_of_lt h2)⟩

/-- With `fovScale = 1`, the depths 3 and 5 of the back and the front face give the
scales 4 and 12/5, in exact arithmetic and in binary32 (where 12/5 is rounded). -/
theorem scale_decreasing_witness :
    ((0 : ℚ) < 1 ∧ (0 : ℚ) < 3 ∧ (3 : ℚ) < 5) ∧
    projScale (1 : ℚ) 5 = 12 / 5 ∧ projScale (1 : ℚ) 3 = 4 ∧
    projScale32 1 5 = 5033165 / 2097152 ∧ projScale32 1 3 = 4 ∧
    (projScale (1 : ℚ) 5 < projScale (1 : ℚ) 3 ∧ projScale32 1 5 ≤ projScale32 1 3) :=
  ⟨⟨by norm_num, by norm_num, by norm_num⟩, by norm_num [projScale, CUBE_SIZE],
    by norm_num [projScale, CUBE_SIZE], by decide!, by decide!,
    scale_decreasing 1 3 5 (by norm_num) (by norm_num) (by norm_num)⟩

/-! ## Edge functions and barycentric weights -/

section Weights

set_option linter.unusedSectionVars false

variable {α : Type} [LinearOrderedField α] [FloorRing α]

theorem edgeFunction_sum (p0 p1 p2 : Point2D α) (x y : Int) :
    (edgeFunction p1 p2 (pixelPoint x y) : α) + edgeFunction p2 p0 (pixelPoint x y)
      + edgeFunction p0 p1 (pixelPoint x y) = edgeFunction p0 p1 p2 := by
  have hs := edge_sum p0 p1 p2 x y
  unfold edgeFunction
  exact_mod_cast hs

theorem edgeFunction_ne_zero (p0 p1 p2 : Point2D α) (ha : edgeInt p0 p1 p2 ≠ 0) :
    (edgeFunction p0 p1 p2 : α) ≠ 0 := by
  unfold edgeFunction
  exact_mod_cast ha

theorem weights_sum_one (p0 p1 p2 : Point2D α) (x y : Int) (ha : edgeInt p0 p1 p2 ≠ 0) :
    (edgeFunction p1 p2 (pixelPoint x y) : α) / edgeFunction p0 p1 p2
      + edgeFunction p2 p0 (pixelPoint x y) / edgeFunction p0 p1 p2
      + edgeFunction p0 p1 (pixelPoint x y) / edgeFunction p0 p1 p2 = 1 := by
  have ha' := edgeFunction_ne_zero p0 p1 p2 ha
  rw [← add_div, ← add_div, edgeFunction_sum, div_self ha']

/-- For real numbers of sum `A ≠ 0`: all are `≥ 0` or all are `≤ 0` exactly when each has
the sign of `A`, and exactly when each quotient by `A` is `≥ 0`. -/
theorem same_sign_iff (W0 W1 W2 A : α) (hsum : W0 + W1 + W2 = A) (hA : A ≠ 0) :
    (((W0 ≥ 0 ∧ W1 ≥ 0 ∧ W2 ≥ 0) ∨ (W0 ≤ 0 ∧ W1 ≤ 0 ∧ W2 ≤ 0)) ↔
      (0 ≤ W0 * A ∧ 0 ≤ W1 * A ∧ 0 ≤ W2 * A)) ∧
    (((W0 ≥ 0 ∧ W1 ≥ 0 ∧ W2 ≥ 0) ∨ (W0 ≤ 0 ∧ W1 ≤ 0 ∧ W2 ≤ 0)) ↔
      (0 ≤ W0 / A ∧ 0 ≤ W1 / A ∧ 0 ≤ W2 / A)) := by
  rcases lt_or_gt_of_ne hA with hneg | hpos
  · have hm : ∀ W : α, 0 ≤ W * A ↔ W ≤ 0 := fun W =>
      ⟨fun h => by nlinarith, fun h => by nlinarith⟩
    have hd : ∀ W : α, 0 ≤ W / A ↔ W ≤ 0 := fun W => by
      rw [div_nonneg_iff]
      constructor
      · rintro (⟨-, h⟩ | ⟨h, -⟩)
        · exact absurd h (not_le.2 hneg)
        · exact h
      · exact fun h => Or.inr ⟨h, le_of_lt hneg⟩
    simp only [hm, hd]
    have key : ((W0 ≥ 0 ∧ W1 ≥ 0 ∧ W2 ≥ 0) ∨ (W0 ≤ 0 ∧ W1 ≤ 0 ∧ W2 ≤ 0)) ↔
        (W0 ≤ 0 ∧ W1 ≤ 0 ∧ W2 ≤ 0) := by
      constructor
      · rintro (⟨h0, h1, h2⟩ | h)
        · exact absurd hneg (not_lt.2 (by linarith))
        · exact h
      · exact Or.inr
    exact ⟨key, key⟩
  · have hm : ∀ W : α, 0 ≤ W * A ↔ 0 ≤ W := fun W =>
      ⟨fun h => by nlinarith, fun h => by nlinarith⟩
    have hd : ∀ W : α, 0 ≤ W / A ↔ 0 ≤ W := fun W => by
      rw [div_nonneg_iff]
      constructor
      · rintro (⟨h, -⟩ | ⟨-, h⟩)
        · exact h
        · exact absurd h (not_le.2 hpos)
      · exact fun h => Or.inl ⟨h, le_of_lt hpos⟩
    simp only [hm, hd]
    have key : ((W0 ≥ 0 ∧ W1 ≥ 0 ∧ W2 ≥ 0) ∨ (W0 ≤ 0 ∧ W1 ≤ 0 ∧ W2 ≤ 0)) ↔
        (0 ≤ W0 ∧ 0 ≤ W1 ∧ 0 ≤ W2) := by
      constructor
      · rintro (h | ⟨h0, h1, h2⟩)
        · exact h
        · exact absurd hpos (not_lt.2 (by linarith))
      · exact Or.inl
    exact ⟨key, key⟩

/-- C14: for a triangle of non-zero `area` and every pixel, the inside test of lines
77-78 (`w0`, `w1`, `w2` all `≥ 0` or all `≤ 0`) holds exactly when each of `w0`, `w1`,
`w2` has the sign of `area`, that is `wi * area ≥ 0`, and exactly when the three
barycentric weights `wi / area` are `≥ 0`. -/
theorem inside_iff_sign_of_area (p0 p1 p2 : Point2D α) (x y : Int)
    (ha : edgeInt p0 p1 p2 ≠ 0) :
    (insideTest p0 p1 p2 x y ↔
      (0 ≤ (edgeFunction p1 p2 (pixelPoint x y) : α) * edgeFunction p0 p1 p2 ∧
        0 ≤ (edgeFunction p2 p0 (pixelPoint x y) : α) * edgeFunction p0 p1 p2 ∧
        0 ≤ (edgeFunction p0 p1 (pixelPoint x y) : α) * edgeFunction p0 p1 p2)) ∧
    (insideTest p0 p1 p2 x y ↔
      (0 ≤ (edgeFunction p1 p2 (pixelPoint x y) : α) / edgeFunction p0 p1 p2 ∧
        0 ≤ (edgeFunction p2 p0 (pixelPoint x y) : α) / edgeFunction p0 p1 p2 ∧
        0 ≤ (edgeFunction p0 p1 (pixelPoint x y) : α) / edgeFunction p0 p1 p2)) :=
  same_sign_iff _ _ _ _ (edgeFunction_sum p0 p1 p2 x y) (edgeFunction_ne_zero p0 p1 p2 ha)

/-- C15, as amended: for all integer points and every pixel, `w0 + w1 + w2 = area` for
the integer values of the edge expressions, and for their `float` values when the four
are below `2 ^ 24` in magnitude (the conversion to `float` is then exact); for
`area ≠ 0` the barycentric weights `wi / area` sum to 1 in exact arithmetic. -/
theorem barycentric_sum (p0 p1 p2 : Point2D α) (x y : Int) :
    edgeInt p1 p2 (pixelPoint x y : Point2D α) + edgeInt p2 p0 (pixelPoint x y : Point2D α)
      + edgeInt p0 p1 (pixelPoint x y : Point2D α) = edgeInt p0 p1 p2 ∧
    (|edgeInt p1 p2 (pixelPoint x y : Point2D α)| < 16777216 →
      |edgeInt p2 p0 (pixelPoint x y : Point2D α)| < 16777216 →
      |edgeInt p0 p1 (pixelPoint x y : Point2D α)| < 16777216 →
      |edgeInt p0 p1 p2| < 16777216 →
      edgeFunction32 p1 p2 (pixelPoint x y : Point2D α)
        + edgeFunction32 p2 p0 (pixelPoint x y : Point2D α)
        + edgeFunction32 p0 p1 (pixelPoint x y : Point2D α) = edgeFunction32 p0 p1 p2) ∧
    (edgeInt p0 p1 p2 ≠ 0 →
      ((edgeInt p1 p2 (pixelPoint x y : Point2D α) : Int) : α) / ((edgeInt p0 p1 p2 : Int) : α)
        + ((edgeInt p2 p0 (pixelPoint x y : Point2D α) : Int) : α)
          / ((edgeInt p0 p1 p2 : Int) : α)
        + ((edgeInt p0 p1 (pixelPoint x y : Point2D α) : Int) : α)
          / ((edgeInt p0 p1 p2 : Int) : α) = 1) := by
  refine ⟨edge_sum p0 p1 p2 x y, ?_, weights_sum_one p0 p1 p2 x y⟩
  intro h0 h1 h2 ha
  unfold edgeFunction32
  rw [f32_intCast _ h0, f32_intCast _ h1, f32_intCast _ h2, f32_intCast _ ha]
  exact_mod_cast edge_sum p0 p1 p2 x y

/-- C16: for a triangle that is not degenerate and a pixel passing the inside test, the
interpolated depth of line 84 lies between the least and the greatest of the three vertex
depths; when the three vertex depths are one value `d`, the interpolated depth is `d`. -/
theorem interp_depth_between (p0 p1 p2 : Point2D α) (x y : Int)
    (ha : edgeInt p0 p1 p2 ≠ 0) (hin : insideTest p0 p1 p2 x y) :
    min (min p0.depth p1.depth) p2.depth ≤ interpDepth p0 p1 p2 x y ∧
    interpDepth p0 p1 p2 x y ≤ max (max p0.depth p1.depth) p2.depth ∧
    ∀ d : α, p0.depth = d → p1.depth = d → p2.depth = d →
      interpDepth p0 p1 p2 x y = d := by
  have hsum := weights_sum_one p0 p1 p2 x y ha
  obtain ⟨h0, h1, h2⟩ := (same_sign_iff _ _ _ _ (edgeFunction_sum p0 p1 p2 x y)
    (edgeFunction_ne_zero p0 p1 p2 ha)).2.1 hin
  unfold interpDepth
  simp only []
  generalize (edgeFunction p1 p2 (pixelPoint x y) : α) / edgeFunction p0 p1 p2 = a
    at hsum h0 ⊢
  generalize (edgeFunction p2 p0 (pixelPoint x y) : α) / edgeFunction p0 p1 p2 = b
    at hsum h1 ⊢
  generalize (edgeFunction p0 p1 (pixelPoint x y) : α) / edgeFunction p0 p1 p2 = c
    at hsum h2 ⊢
  have hm0 : min (min p0.depth p1.depth) p2.depth ≤ p0.depth :=
    le_trans (min_le_left _ _) (min_le_left _ _)
  have hm1 : min (min p0.depth p1.depth) p2.depth ≤ p1.depth :=
    le_trans (min_le_left _ _) (min_le_right _ _)
  have hm2 : min (min p0.depth p1.depth) p2.depth ≤ p2.depth := min_le_right _ _
  have hM0 : p0.depth ≤ max (max p0.depth p1.depth) p2.depth :=
    le_trans (le_max_left _ _) (le_max_left _ _)
  have hM1 : p1.depth ≤ max (max p0.depth p1.depth) p2.depth :=
    le_trans (le_max_right _ _) (le_max_left _ _)
  have hM2 : p2.depth ≤ max (max p0.depth p1.depth) p2.depth := le_max_right _ _
  generalize min (min p0.depth p1.depth) p2.depth = m at hm0 hm1 hm2 ⊢
  generalize max (max p0.depth p1.depth) p2.depth = M at hM0 hM1 hM2 ⊢
  have em : m = a * m + b * m + c * m := by
    have : a * m + b * m + c * m = (a + b + c) * m := by ring
    rw [this, hsum, one_mul]
  have eM : M = a * M + b * M + c * M := by
    have : a * M + b * M + c * M = (a + b + c) * M := by ring
    rw [this, hsum, one_mul]
  refine ⟨?_, ?_, ?_⟩
  · nlinarith [mul_nonneg h0 (sub_nonneg.2 hm0), mul_nonneg h1 (sub_nonneg.2 hm1),
      mul_nonneg h2 (sub_nonneg.2 hm2)]
  · nlinarith [mul_nonneg h0 (sub_nonneg.2 hM0), mul_nonneg h1 (sub_nonneg.2 hM1),
      mul_nonneg h2 (sub_nonneg.2 hM2)]
  · intro d e0 e1 e2
    rw [e0, e1, e2]
    have : a * d + b * d + c * d = (a + b + c) * d := by ring
    rw [this, hsum, one_mul]

/-- C19: for all integer points, each of the three vertex pixels passes the inside test
of `drawTriangle` and lies in the bounding box: at `P = p0`, `w1 = 0`, `w2 = 0` and
`w0 = area`; at `P = p1`, `w0 = 0`, `w2 = 0` and `w1 = area`; at `P = p2`, `w0 = 0`,
`w1 = 0` and `w2 = area`. -/
theorem vertices_pass_inside_test (p0 p1 p2 : Point2D α) :
    (insideTest p0 p1 p2 p0.x p0.y ∧ inBox p0 p1 p2 (p0.y, p0.x) ∧
      edgeInt p1 p2 (pixelPoint p0.x p0.y : Point2D α) = edgeInt p0 p1 p2 ∧
      edgeInt p2 p0 (pixelPoint p0.x p0.y : Point2D α) = 0 ∧
      edgeInt p0 p1 (pixelPoint p0.x p0.y : Point2D α) = 0) ∧
    (insideTest p0 p1 p2 p1.x p1.y ∧ inBox p0 p1 p2 (p1.y, p1.x) ∧
      edgeInt p1 p2 (pixelPoint p1.x p1.y : Point2D α) = 0 ∧
      edgeInt p2 p0 (pixelPoint p1.x p1.y : Point2D α) = edgeInt p0 p1 p2 ∧
      edgeInt p0 p1 (pixelPoint p1.x p1.y : Point2D α) = 0) ∧
    (insideTest p0 p1 p2 p2.x p2.y ∧ inBox p0 p1 p2 (p2.y, p2.x) ∧
      edgeInt p1 p2 (pixelPoint p2.x p2.y : Point2D α) = 0 ∧
      edgeInt p2 p0 (pixelPoint p2.x p2.y : Point2D α) = 0 ∧
      edgeInt p0 p1 (pixelPoint p2.x p2.y : Point2D α) = edgeInt p0 p1 p2) := by
  have key : ∀ (x y : Int) (w0 w1 w2 : Int),
      edgeInt p1 p2 (pixelPoint x y : Point2D α) = w0 →
      edgeInt p2 p0 (pixelPoint x y : Point2D α) = w1 →
      edgeInt p0 p1 (pixelPoint x y : Point2D α) = w2 →
      ((w0 = edgeInt p0 p1 p2 ∧ w1 = 0 ∧ w2 = 0) ∨ (w0 = 0 ∧ w1 = edgeInt p0 p1 p2 ∧ w2 = 0)
        ∨ (w0 = 0 ∧ w1 = 0 ∧ w2 = edgeInt p0 p1 p2)) →
      insideTest p0 p1 p2 x y := by
    intro x y w0 w1 w2 e0 e1 e2 h
    rw [insideTest_iff, e0, e1, e2]
    omega
  have a0 : edgeInt p1 p2 (pixelPoint p0.x p0.y : Point2D α) = edgeInt p0 p1 p2 := by
    simp only [edgeInt, pixelPoint]; ring
  have b0 : edgeInt p2 p0 (pixelPoint p0.x p0.y : Point2D α) = 0 := by
    simp only [edgeInt, pixelPoint]; ring
  have c0 : edgeInt p0 p1 (pixelPoint p0.x p0.y : Point2D α) = 0 := by
    simp only [edgeInt, pixelPoint]; ring
  have a1 : edgeInt p1 p2 (pixelPoint p1.x p1.y : Point2D α) = 0 := by
    simp only [edgeInt, pixelPoint]; ring
  have b1 : edgeInt p2 p0 (pixelPoint p1.x p1.y : Point2D α) = edgeInt p0 p1 p2 := by
    simp only [edgeInt, pixelPoint]; ring
  have c1 : edgeInt p0 p1 (pixelPoint p1.x p1.y : Point2D α) = 0 := by
    simp only [edgeInt, pixelPoint]; ring
  have a2 : edgeInt p1 p2 (pixelPoint p2.x p2.y : Point2D α) = 0 := by
    simp only [edgeInt, pixelPoint]; ring
  have b2 : edgeInt p2 p0 (pixelPoint p2.x p2.y : Point2D α) = 0 := by
    simp only [edgeInt, pixelPoint]; ring
  have c2 : edgeInt p0 p1 (pixelPoint p2.x p2.y : Point2D α) = edgeInt p0 p1 p2 := by
    simp only [edgeInt, pixelPoint]
  refine ⟨⟨key _ _ _ _ _ a0 b0 c0 (Or.inl ⟨rfl, rfl, rfl⟩), ?_, a0, b0, c0⟩,
    ⟨key _ _ _ _ _ a1 b1 c1 (Or.inr (Or.inl ⟨rfl, rfl, rfl⟩)), ?_, a1, b1, c1⟩,
    ⟨key _ _ _ _ _ a2 b2 c2 (Or.inr (Or.inr ⟨rfl, rfl, rfl⟩)), ?_, a2, b2, c2⟩⟩
  · simp [inBox]
  · simp [inBox]
  · simp [inBox]

/-- C13: the geometry is well formed: `cube_vertices` has 8 entries and `cube_faces` 6,
every face lists 4 indices, every index lies in `[0, 7]`, the projected vertices are 8,
and each lookup `projected[f[i]]`, `i` from 0 to 3, of the frame loop is inside both
vectors. -/
theorem geometry_well_formed (cos sin tan : α → α) (angleX angleY : α) :
    (cube_vertices : List (Point3D α)).length = 8 ∧ cube_faces.length = 6 ∧
    (∀ f ∈ cube_faces, f.length = 4 ∧ ∀ i ∈ f, 0 ≤ i ∧ i ≤ 7) ∧
    (projectedVertices cos sin tan angleX angleY).length = 8 ∧
    ∀ f ∈ cube_faces, ∀ i ∈ ([0, 1, 2, 3] : List Int),
      ∃ j p, idx? f i = some j ∧
        idx? (projectedVertices cos sin tan angleX angleY) j = some p := by
  have hlen : (projectedVertices cos sin tan angleX angleY).length = 8 := by
    simp [projectedVertices, cube_vertices]
  refine ⟨rfl, rfl, by decide, hlen, ?_⟩
  have hidx : ∀ f ∈ cube_faces, ∀ i ∈ ([0, 1, 2, 3] : List Int),
      ((idx? f i).map fun j => decide (0 ≤ j ∧ j ≤ 7)) = some true := by decide
  intro f hf i hi
  have h := hidx f hf i hi
  cases hj : idx? f i with
  | none => simp [hj] at h
  | some j =>
    rw [hj] at h
    simp only [Option.map_some', Option.some.injEq, decide_eq_true_eq] at h
    obtain ⟨p, -, hp⟩ := idx?_some_of_lt (projectedVertices cos sin tan angleX angleY) j h.1
      (by rw [hlen]; omega)
    exact ⟨j, p, rfl, hp⟩

end Weights

/-- C20: the helper `clamp(min, max, value)`, with its parameters in the declared order
and `min ≤ max`, returns `value` when `min ≤ value ≤ max`, `min` when `value < min` and
`max` when `value > max`; its result lies in `[min, max]`. -/
theorem clamp_declared_order {T : Type} [LinearOrder T] (lo hi value : T) (h : lo ≤ hi) :
    (lo ≤ value → value ≤ hi → clamp lo hi value = value) ∧
    (value < lo → clamp lo hi value = lo) ∧
    (hi < value → clamp lo hi value = hi) ∧
    lo ≤ clamp lo hi value ∧ clamp lo hi value ≤ hi := by
  unfold clamp stdMin stdMax
  by_cases h1 : value < lo
  · have h2 : ¬ hi < lo := not_lt.2 h
    have h3 : ¬ hi < value := not_lt.2 (le_trans (le_of_lt h1) h)
    rw [if_pos h1, if_neg h2]
    exact ⟨fun h4 => absurd h1 (not_lt.2 h4), fun _ => rfl, fun h4 => absurd h4 h3,
      le_refl lo, h⟩
  · by_cases h2 : hi < value
    · rw [if_neg h1, if_pos h2]
      exact ⟨fun _ h4 => absurd h2 (not_lt.2 h4), fun h4 => absurd h4 h1, fun _ => rfl,
        h, le_refl hi⟩
    · rw [if_neg h1, if_neg h2]
      exact ⟨fun _ _ => rfl, fun h4 => absurd h4 h1, fun h4 => absurd h4 h2,
        not_lt.1 h1, not_lt.1 h2⟩

/-- With `min = 0` and `max = 7`: the value 2 is kept, -2 gives 0 and 9 gives 7. -/
theorem clamp_declared_order_witness :
    (0 : Int) ≤ 7 ∧ clamp (0 : Int) 7 2 = 2 ∧ clamp (0 : Int) 7 (-2) = 0 ∧
      clamp (0 : Int) 7 9 = 7 :=
  ⟨by decide, (clamp_declared_order (0 : Int) 7 2 (by decide)).1 (by decide) (by decide),
    (clamp_declared_order (0 : Int) 7 (-2) (by decide)).2.1 (by decide),
    (clamp_declared_order (0 : Int) 7 9 (by decide)).2.2.1 (by decide)⟩

/-- The first triangle of the front face has non-zero area and the centre pixel passes
its inside test; there each of `w0`, `w1`, `w2` has the sign of `area`. -/
theorem inside_iff_sign_of_area_witness :
    edgeInt frontTriangle.1 frontTriangle.2.1 frontTriangle.2.2 ≠ 0 ∧
    insideTest frontTriangle.1 frontTriangle.2.1 frontTriangle.2.2 40 20 ∧
    (0 ≤ (edgeFunction frontTriangle.2.1 frontTriangle.2.2 (pixelPoint 40 20) : ℚ)
        * edgeFunction frontTriangle.1 frontTriangle.2.1 frontTriangle.2.2 ∧
      0 ≤ (edgeFunction frontTriangle.2.2 frontTriangle.1 (pixelPoint 40 20) : ℚ)
        * edgeFunction frontTriangle.1 frontTriangle.2.1 frontTriangle.2.2 ∧
      0 ≤ (edgeFunction frontTriangle.1 frontTriangle.2.1 (pixelPoint 40 20) : ℚ)
        * edgeFunction frontTriangle.1 frontTriangle.2.1 frontTriangle.2.2) := by
  have hin : insideTest frontTriangle.1 frontTriangle.2.1 frontTriangle.2.2 40 20 := by
    rw [insideTest_iff]
    decide
  exact ⟨by decide, hin,
    (inside_iff_sign_of_area frontTriangle.1 frontTriangle.2.1 frontTriangle.2.2 40 20
      (by decide)).1.1 hin⟩

/-- At the pixel `(1, 1)` of `slopedTriangle`, of vertex depths 3, 5 and 7, the
interpolated depth is 9/2, between 3 and 7. -/
theorem interp_depth_between_witness :
    edgeInt slopedTriangle.1 slopedTriangle.2.1 slopedTriangle.2.2 ≠ 0 ∧
    insideTest slopedTriangle.1 slopedTriangle.2.1 slopedTriangle.2.2 1 1 ∧
    interpDepth slopedTriangle.1 slopedTriangle.2.1 slopedTriangle.2.2 1 1 = 9 / 2 ∧
    (3 : ℚ) ≤ interpDepth slopedTriangle.1 slopedTriangle.2.1 slopedTriangle.2.2 1 1 ∧
    interpDepth slopedTriangle.1 slopedTriangle.2.1 slopedTriangle.2.2 1 1 ≤ 7 := by
  have hin : insideTest slopedTriangle.1 slopedTriangle.2.1 slopedTriangle.2.2 1 1 := by
    rw [insideTest_iff]
    decide
  have h := interp_depth_between slopedTriangle.1 slopedTriangle.2.1 slopedTriangle.2.2 1 1
    (by decide) hin
  have hval : interpDepth slopedTriangle.1 slopedTriangle.2.1 slopedTriangle.2.2 1 1
      = 9 / 2 := by
    norm_num [interpDepth, edgeFunction, edgeInt, pixelPoint, slopedTriangle]
  refine ⟨by decide, hin, hval, ?_, ?_⟩
  · refine le_trans ?_ h.1
    norm_num [slopedTriangle]
  · refine le_trans h.2.1 ?_
    norm_num [slopedTriangle]

/-! ## Frame effect of `drawTriangle` -/

section Frame

set_option linter.unusedSectionVars false

variable {α : Type} [LinearOrderedField α] [FloorRing α]

theorem drawPixel_offScreen (p0 p1 p2 : Point2D α) (y x : Int) (b : Buffers α)
    (h : ¬ onScreen y x) : drawPixel p0 p1 p2 y x b = some b := by
  unfold drawPixel
  have h' : ¬ (x ≥ 0 ∧ x < WIDTH ∧ y ≥ 0 ∧ y < HEIGHT) := h
  by_cases hin : insideTest p0 p1 p2 x y
  · simp only [if_pos hin, if_neg h']
  · simp only [if_neg hin]

theorem at2?_offScreen {β : Type} (g : List (List β)) (hg : GridWF g) (y x : Int)
    (h : ¬ onScreen y x) : at2? g y x = none := by
  obtain ⟨hlen, hrows⟩ := hg
  have hW : WIDTH.toNat = 80 := by decide
  have hH : HEIGHT.toNat = 40 := by decide
  have hWi : WIDTH = 80 := rfl
  have hHi : HEIGHT = 40 := rfl
  unfold at2? idx?
  by_cases hy0 : 0 ≤ y
  swap
  · simp [hy0]
  rw [if_pos hy0]
  cases hrow : g[y.toNat]? with
  | none => rfl
  | some row =>
    have hmem : row ∈ g := List.getElem?_mem hrow
    have hrl := hrows row hmem
    have hylt : y.toNat < g.length := by
      by_contra hge
      rw [List.getElem?_eq_none (not_lt.1 hge)] at hrow
      exact absurd hrow (by simp)
    simp only [Option.some_bind]
    by_cases hx0 : 0 ≤ x
    swap
    · simp [hx0]
    rw [if_pos hx0]
    apply List.getElem?_eq_none
    unfold onScreen at h
    omega

/-- C11: for arbitrary triangle vertices and buffers of `HEIGHT` rows of `WIDTH` cells,
`drawTriangle` returns, so that no index it uses is outside a buffer, and returns buffers
of the same dimensions; a pixel outside the screen is skipped, leaving the buffers as
they are, and the buffers have no cell there. -/
theorem draw_stays_in_bounds (b : Buffers α) (hb : b.WF) (p0 p1 p2 : Point2D α) :
    (∃ b', drawTriangle b p0 p1 p2 = some b' ∧ b'.WF) ∧
    ∀ y x : Int, ¬ onScreen y x →
      drawPixel p0 p1 p2 y x b = some b ∧
        at2? b.screen y x = none ∧ at2? b.zbuffer y x = none := by
  obtain ⟨b', h1, h2, -⟩ := drawTriangle_spec p0 p1 p2 b hb
  exact ⟨⟨b', h1, h2⟩, fun y x h => ⟨drawPixel_offScreen p0 p1 p2 y x b h,
    at2?_offScreen b.screen hb.1 y x h, at2?_offScreen b.zbuffer hb.2 y x h⟩⟩

/-- C18: for buffers of the screen's dimensions and every triangle, degenerate or not,
`drawTriangle` returns and, at every cell, the new depth is at most the previous one, the
character is unchanged where the depth is unchanged, and both are unchanged outside the
bounding box of the triangle. -/
theorem draw_only_lowers_depth (b : Buffers α) (hb : b.WF) (p0 p1 p2 : Point2D α) :
    ∃ b', drawTriangle b p0 p1 p2 = some b' ∧
      ∀ y x : Int, onScreen y x →
        ∃ z c z' c', at2? b.zbuffer y x = some z ∧ at2? b.screen y x = some c ∧
          at2? b'.zbuffer y x = some z' ∧ at2? b'.screen y x = some c' ∧
          z' ≤ z ∧ (z' = z → c' = c) ∧ (¬ inBox p0 p1 p2 (y, x) → z' = z ∧ c' = c) := by
  obtain ⟨b', h1, hwf, hcell⟩ := drawTriangle_spec p0 p1 p2 b hb
  refine ⟨b', h1, fun y x hyx => ⟨zAt b y x, chAt b y x, zAt b' y x, chAt b' y x,
    at2?_zbuffer b hb y x hyx, at2?_screen b hb y x hyx, at2?_zbuffer b' hwf y x hyx,
    at2?_screen b' hwf y x hyx, ?_⟩⟩
  obtain ⟨hin, hout⟩ := hcell (y, x) hyx
  have hout' : ¬ inBox p0 p1 p2 (y, x) → zAt b' y x = zAt b y x ∧ chAt b' y x = chAt b y x :=
    fun h => ⟨congrArg Prod.fst (hout h), congrArg Prod.snd (hout h)⟩
  by_cases hbox : inBox p0 p1 p2 (y, x)
  · have hc := hin hbox
    have hz : zAt b' y x = (newCell p0 p1 p2 (y, x) (cellAt b (y, x))).1 :=
      congrArg Prod.fst hc
    have hch : chAt b' y x = (newCell p0 p1 p2 (y, x) (cellAt b (y, x))).2 :=
      congrArg Prod.snd hc
    rw [hz, hch]
    unfold newCell
    by_cases hw : insideTest p0 p1 p2 x y ∧ interpDepth p0 p1 p2 x y < zAt b y x
    · have hw' : insideTest p0 p1 p2 (y, x).2 (y, x).1 ∧
          interpDepth p0 p1 p2 (y, x).2 (y, x).1 < (cellAt b (y, x)).1 := hw
      rw [if_pos hw']
      exact ⟨le_of_lt hw.2, fun h => absurd h (ne_of_lt hw.2), fun h => absurd hbox h⟩
    · have hw' : ¬ (insideTest p0 p1 p2 (y, x).2 (y, x).1 ∧
          interpDepth p0 p1 p2 (y, x).2 (y, x).1 < (cellAt b (y, x)).1) := hw
      rw [if_neg hw']
      exact ⟨le_refl _, fun _ => rfl, fun _ => ⟨rfl, rfl⟩⟩
  · obtain ⟨e1, e2⟩ := hout' hbox
    rw [e1, e2]
    exact ⟨le_refl _, fun _ => rfl, fun _ => ⟨rfl, rfl⟩⟩

end Frame

/-- The fresh buffers have the screen's dimensions, and `drawTriangle` returns on
`wideTriangle`, which reaches beyond the screen on every side. -/
theorem draw_stays_in_bounds_witness :
    (freshBuffers : Buffers ℚ).WF ∧ ¬ onScreen (-5) (-5) ∧ ¬ onScreen 10 100 ∧
    ∃ b', drawTriangle (freshBuffers : Buffers ℚ) wideTriangle.1 wideTriangle.2.1
      wideTriangle.2.2 = some b' ∧ b'.WF :=
  ⟨freshBuffers_WF, by decide, by decide,
    (draw_stays_in_bounds freshBuffers freshBuffers_WF wideTriangle.1 wideTriangle.2.1
      wideTriangle.2.2).1⟩

/-- On fresh buffers and the first triangle of the front face, `drawTriangle`
returns and the depth of the centre cell is not raised. -/
theorem draw_only_lowers_depth_witness :
    (freshBuffers : Buffers ℚ).WF ∧
    ∃ b' z z', drawTriangle (freshBuffers : Buffers ℚ) frontTriangle.1 frontTriangle.2.1
        frontTriangle.2.2 = some b' ∧
      at2? (freshBuffers : Buffers ℚ).zbuffer 20 40 = some z ∧
      at2? b'.zbuffer 20 40 = some z' ∧ z' ≤ z := by
  obtain ⟨b', h1, h2⟩ := draw_only_lowers_depth freshBuffers freshBuffers_WF
    frontTriangle.1 frontTriangle.2.1 frontTriangle.2.2
  obtain ⟨z, c, z', c', e1, -, e3, -, hle, -⟩ := h2 20 40 (by decide)
  exact ⟨freshBuffers_WF, b', z, z', h1, e1, e3, hle⟩

/-! ## Order of the vertices -/

section Winding

set_option linter.unusedSectionVars false

variable {α : Type} [LinearOrderedField α] [FloorRing α]

theorem edgeInt_swap (A B P : Point2D α) : edgeInt B A P = -edgeInt A B P := by
  simp only [edgeInt]
  ring

theorem edgeInt_area_swap (p0 p1 p2 : Point2D α) : edgeInt p0 p2 p1 = -edgeInt p0 p1 p2 := by
  simp only [edgeInt]
  ring

theorem edgeInt_area_rot (p0 p1 p2 : Point2D α) : edgeInt p1 p2 p0 = edgeInt p0 p1 p2 := by
  simp only [edgeInt]
  ring

theorem edgeFunction_swap (A B P : Point2D α) :
    (edgeFunction B A P : α) = -edgeFunction A B P := by
  unfold edgeFunction
  rw [edgeInt_swap]
  push_cast
  rfl

theorem drawPixel_congr (q0 q1 q2 p0 p1 p2 : Point2D α) (y x : Int) (b : Buffers α)
    (hi : insideTest q0 q1 q2 x y ↔ insideTest p0 p1 p2 x y)
    (hd : interpDepth q0 q1 q2 x y = interpDepth p0 p1 p2 x y) :
    drawPixel q0 q1 q2 y x b = drawPixel p0 p1 p2 y x b := by
  unfold drawPixel
  by_cases h : insideTest p0 p1 p2 x y
  · rw [if_pos h, if_pos (hi.2 h)]
    simp only [hd]
  · rw [if_neg h, if_neg (fun h' => h (hi.1 h'))]

theorem sameRaster_of (q p : Triangle α)
    (hminx : min (min q.1.x q.2.1.x) q.2.2.x = min (min p.1.x p.2.1.x) p.2.2.x)
    (hmaxx : max (max q.1.x q.2.1.x) q.2.2.x = max (max p.1.x p.2.1.x) p.2.2.x)
    (hminy : min (min q.1.y q.2.1.y) q.2.2.y = min (min p.1.y p.2.1.y) p.2.2.y)
    (hmaxy : max (max q.1.y q.2.1.y) q.2.2.y = max (max p.1.y p.2.1.y) p.2.2.y)
    (hi : ∀ x y : Int, insideTest q.1 q.2.1 q.2.2 x y ↔ insideTest p.1 p.2.1 p.2.2 x y)
    (hd : ∀ x y : Int, interpDepth q.1 q.2.1 q.2.2 x y = interpDepth p.1 p.2.1 p.2.2 x y) :
    sameRaster q p := by
  refine ⟨hi, hd, fun b => ?_⟩
  unfold drawTriangle
  simp only [hminx, hmaxx, hminy, hmaxy]
  have hf : (fun (b : Buffers α) (y : Int) =>
      (intRange (min (min p.1.x p.2.1.x) p.2.2.x) (max (max p.1.x p.2.1.x) p.2.2.x)).foldlM
        (fun b x => drawPixel q.1 q.2.1 q.2.2 y x b) b) =
      (fun (b : Buffers α) (y : Int) =>
      (intRange (min (min p.1.x p.2.1.x) p.2.2.x) (max (max p.1.x p.2.1.x) p.2.2.x)).foldlM
        (fun b x => drawPixel p.1 p.2.1 p.2.2 y x b) b) := by
    funext b y
    have hg : (fun (b : Buffers α) (x : Int) => drawPixel q.1 q.2.1 q.2.2 y x b) =
        (fun (b : Buffers α) (x : Int) => drawPixel p.1 p.2.1 p.2.2 y x b) := by
      funext b x
      exact drawPixel_congr _ _ _ _ _ _ y x b (hi x y) (hd x y)
    rw [hg]
  rw [hf]

theorem sameRaster_trans (r q p : Triangle α) (h1 : sameRaster r q) (h2 : sameRaster q p) :
    sameRaster r p :=
  ⟨fun x y => (h1.1 x y).trans (h2.1 x y), fun x y => (h1.2.1 x y).trans (h2.2.1 x y),
    fun b => (h1.2.2 b).trans (h2.2.2 b)⟩

/-- Exchanging the last two vertices changes nothing. -/
theorem sameRaster_swap (p0 p1 p2 : Point2D α) : sameRaster (p0, p2, p1) (p0, p1, p2) := by
  apply sameRaster_of
  · show min (min p0.x p2.x) p1.x = min (min p0.x p1.x) p2.x
    omega
  · show max (max p0.x p2.x) p1.x = max (max p0.x p1.x) p2.x
    omega
  · show min (min p0.y p2.y) p1.y = min (min p0.y p1.y) p2.y
    omega
  · show max (max p0.y p2.y) p1.y = max (max p0.y p1.y) p2.y
    omega
  · intro x y
    rw [insideTest_iff, insideTest_iff]
    simp only []
    rw [edgeInt_swap p1 p2 (pixelPoint x y), edgeInt_swap p0 p1 (pixelPoint x y),
      edgeInt_swap p2 p0 (pixelPoint x y)]
    omega
  · intro x y
    unfold interpDepth
    simp only []
    rw [edgeFunction_swap p1 p2 (pixelPoint x y), edgeFunction_swap p0 p1 (pixelPoint x y),
      edgeFunction_swap p2 p0 (pixelPoint x y)]
    have harea : (edgeFunction p0 p2 p1 : α) = -edgeFunction p0 p1 p2 := by
      unfold edgeFunction
      rw [edgeInt_area_swap]
      push_cast
      rfl
    rw [harea]
    simp only [neg_div_neg_eq]
    ring

/-- Starting the triangle from its second vertex changes nothing. -/
theorem sameRaster_rot (p0 p1 p2 : Point2D α) : sameRaster (p1, p2, p0) (p0, p1, p2) := by
  apply sameRaster_of
  · show min (min p1.x p2.x) p0.x = min (min p0.x p1.x) p2.x
    omega
  · show max (max p1.x p2.x) p0.x = max (max p0.x p1.x) p2.x
    omega
  · show min (min p1.y p2.y) p0.y = min (min p0.y p1.y) p2.y
    omega
  · show max (max p1.y p2.y) p0.y = max (max p0.y p1.y) p2.y
    omega
  · intro x y
    rw [insideTest_iff, insideTest_iff]
    simp only []
    omega
  · intro x y
    unfold interpDepth
    simp only []
    have harea : (edgeFunction p1 p2 p0 : α) = edgeFunction p0 p1 p2 := by
      unfold edgeFunction
      rw [edgeInt_area_rot]
    rw [harea]
    ring

theorem sameCoverage_trans (r q p : Triangle α) (h1 : sameCoverage r q)
    (h2 : sameCoverage q p) : sameCoverage r p :=
  ⟨⟨h1.1.1.trans h2.1.1, h1.1.2.1.trans h2.1.2.1, h1.1.2.2.1.trans h2.1.2.2.1,
    h1.1.2.2.2.trans h2.1.2.2.2⟩,
    fun x y => (h1.2.1 x y).trans (h2.2.1 x y), fun x y => (h1.2.2 x y).trans (h2.2.2 x y)⟩

theorem sameCoverage_swap (p0 p1 p2 : Point2D α) :
    sameCoverage (p0, p2, p1) (p0, p1, p2) := by
  have h := sameRaster_swap p0 p1 p2
  refine ⟨⟨?_, ?_, ?_, ?_⟩, h.1, h.2.1⟩
  · show min (min p0.x p2.x) p1.x = min (min p0.x p1.x) p2.x
    omega
  · show max (max p0.x p2.x) p1.x = max (max p0.x p1.x) p2.x
    omega
  · show min (min p0.y p2.y) p1.y = min (min p0.y p1.y) p2.y
    omega
  · show max (max p0.y p2.y) p1.y = max (max p0.y p1.y) p2.y
    omega

theorem sameCoverage_rot (p0 p1 p2 : Point2D α) :
    sameCoverage (p1, p2, p0) (p0, p1, p2) := by
  have h := sameRaster_rot p0 p1 p2
  refine ⟨⟨?_, ?_, ?_, ?_⟩, h.1, h.2.1⟩
  · show min (min p1.x p2.x) p0.x = min (min p0.x p1.x) p2.x
    omega
  · show max (max p1.x p2.x) p0.x = max (max p0.x p1.x) p2.x
    omega
  · show min (min p1.y p2.y) p0.y = min (min p0.y p1.y) p2.y
    omega
  · show max (max p1.y p2.y) p0.y = max (max p0.y p1.y) p2.y
    omega

/-- C12, as amended: the coverage of `drawTriangle` does not depend on the order of the
vertices: for a triangle of non-zero area, each of the five other orders of `p0`, `p1`,
`p2` has non-zero area, the same bounding box, passes the inside test at the same
pixels, and interpolates the same depth at every pixel in exact arithmetic.  (In
binary32 the depth of line 84 can differ in the last place between two orders, and with
it the depth buffers.) -/
theorem winding_order_agnostic (p0 p1 p2 : Point2D α) (ha : edgeInt p0 p1 p2 ≠ 0) :
    sameCoverage (p0, p2, p1) (p0, p1, p2) ∧ sameCoverage (p1, p0, p2) (p0, p1, p2) ∧
    sameCoverage (p1, p2, p0) (p0, p1, p2) ∧ sameCoverage (p2, p0, p1) (p0, p1, p2) ∧
    sameCoverage (p2, p1, p0) (p0, p1, p2) ∧
    edgeInt p0 p2 p1 ≠ 0 ∧ edgeInt p1 p0 p2 ≠ 0 ∧ edgeInt p1 p2 p0 ≠ 0 ∧
    edgeInt p2 p0 p1 ≠ 0 ∧ edgeInt p2 p1 p0 ≠ 0 := by
  have hrot := sameCoverage_rot p0 p1 p2
  have hrot2 : sameCoverage (p2, p0, p1) (p0, p1, p2) :=
    sameCoverage_trans _ _ _ (sameCoverage_rot p1 p2 p0) hrot
  have e1 := edgeInt_area_swap p0 p1 p2
  have e2 := edgeInt_area_rot p0 p1 p2
  have e3 := edgeInt_area_rot p1 p2 p0
  have e4 := edgeInt_area_swap p1 p2 p0
  have e5 := edgeInt_area_swap p2 p0 p1
  refine ⟨sameCoverage_swap p0 p1 p2,
    sameCoverage_trans _ _ _ (sameCoverage_swap p1 p2 p0) hrot, hrot, hrot2,
    sameCoverage_trans _ _ _ (sameCoverage_swap p2 p0 p1) hrot2, ?_, ?_, ?_, ?_, ?_⟩ <;> omega

end Winding

/-- The first triangle of the front face has non-zero area; with its last two vertices
exchanged the same pixels pass the inside test, the centre of the screen among them. -/
theorem winding_order_agnostic_witness :
    edgeInt frontTriangle.1 frontTriangle.2.1 frontTriangle.2.2 ≠ 0 ∧
    insideTest frontTriangle.1 frontTriangle.2.1 frontTriangle.2.2 40 20 ∧
    insideTest frontTriangle.1 frontTriangle.2.2 frontTriangle.2.1 40 20 := by
  have hin : insideTest frontTriangle.1 frontTriangle.2.1 frontTriangle.2.2 40 20 := by
    rw [insideTest_iff]
    decide
  exact ⟨by decide, hin,
    ((winding_order_agnostic frontTriangle.1 frontTriangle.2.1 frontTriangle.2.2
      (by decide)).1.2.1 40 20).2 hin⟩

/-! ## Order of the calls -/

section Commute

set_option linter.unusedSectionVars false

variable {α : Type} [LinearOrderedField α] [FloorRing α]

theorem at2?_natCast {β : Type} (g : List (List β)) (n m : Nat) (hn : n < g.length)
    (hm : m < (g.get ⟨n, hn⟩).length) :
    at2? g (n : Int) (m : Int) = some ((g.get ⟨n, hn⟩).get ⟨m, hm⟩) := by
  unfold at2? idx?
  simp only [Int.natCast_nonneg, if_true, Int.toNat_ofNat]
  rw [List.getElem?_eq_getElem hn, Option.some_bind]
  exact List.getElem?_eq_getElem hm

/-- Two grids of the screen's dimensions that agree at every cell are equal. -/
theorem grid_ext {β : Type} (g1 g2 : List (List β)) (h1 : GridWF g1) (h2 : GridWF g2)
    (h : ∀ y x : Int, onScreen y x → at2? g1 y x = at2? g2 y x) : g1 = g2 := by
  have hW : WIDTH.toNat = 80 := by decide
  have hH : HEIGHT.toNat = 40 := by decide
  apply List.ext_get (by rw [h1.1, h2.1])
  intro n hn1 hn2
  have hr1 : (g1.get ⟨n, hn1⟩).length = WIDTH.toNat := h1.2 _ (List.get_mem g1 _ _)
  have hr2 : (g2.get ⟨n, hn2⟩).length = WIDTH.toNat := h2.2 _ (List.get_mem g2 _ _)
  apply List.ext_get (by rw [hr1, hr2])
  intro m hm1 hm2
  have hon : onScreen (n : Int) (m : Int) := by
    have hn : n < 40 := by rw [h1.1, hH] at hn1; exact hn1
    have hm : m < 80 := by rw [hr1, hW] at hm1; exact hm1
    unfold onScreen WIDTH HEIGHT
    omega
  have e := h n m hon
  rw [at2?_natCast g1 n m hn1 hm1, at2?_natCast g2 n m hn2 hm2] at e
  exact Option.some.inj e

theorem buffers_ext (b1 b2 : Buffers α) (h1 : b1.WF) (h2 : b2.WF)
    (h : ∀ k : Int × Int, onScreen k.1 k.2 → cellAt b1 k = cellAt b2 k) : b1 = b2 := by
  have hs : b1.screen = b2.screen := by
    apply grid_ext _ _ h1.1 h2.1
    intro y x hyx
    rw [at2?_screen b1 h1 y x hyx, at2?_screen b2 h2 y x hyx]
    exact congrArg some (congrArg Prod.snd (h (y, x) hyx))
  have hz : b1.zbuffer = b2.zbuffer := by
    apply grid_ext _ _ h1.2 h2.2
    intro y x hyx
    rw [at2?_zbuffer b1 h1 y x hyx, at2?_zbuffer b2 h2 y x hyx]
    exact congrArg some (congrArg Prod.fst (h (y, x) hyx))
  cases b1
  cases b2
  simp only at hs hz
  rw [hs, hz]

/-- The rewriting of a cell by two triangles does not depend on their order. -/
theorem newCell_comm (p0 p1 p2 q0 q1 q2 : Point2D α) (k : Int × Int) (v : α × Char) :
    newCell q0 q1 q2 k (newCell p0 p1 p2 k v) = newCell p0 p1 p2 k (newCell q0 q1 q2 k v) := by
  unfold newCell
  generalize interpDepth p0 p1 p2 k.2 k.1 = d1
  generalize interpDepth q0 q1 q2 k.2 k.1 = d2
  by_cases i1 : insideTest p0 p1 p2 k.2 k.1 <;> by_cases i2 : insideTest q0 q1 q2 k.2 k.1
  · simp only [i1, i2, true_and]
    rcases lt_trichotomy d1 d2 with h | h | h
    · by_cases hz : d1 < v.1
      · by_cases hz2 : d2 < v.1
        · simp [hz, hz2, h, not_lt.2 (le_of_lt h)]
        · simp [hz, hz2, h, not_lt.2 (le_of_lt h)]
      · have hz2 : ¬ d2 < v.1 := fun h' => hz (lt_trans h h')
        simp [hz, hz2]
    · subst h
      by_cases hz : d1 < v.1
      · simp [hz]
      · simp [hz]
    · by_cases hz2 : d2 < v.1
      · by_cases hz : d1 < v.1
        · simp [hz, hz2, h, not_lt.2 (le_of_lt h)]
        · simp [hz, hz2, h, not_lt.2 (le_of_lt h)]
      · have hz : ¬ d1 < v.1 := fun h' => hz2 (lt_trans h h')
        simp [hz, hz2]
  · simp only [i1, i2, true_and, false_and, if_false]
  · simp only [i1, i2, true_and, false_and, if_false]
  · simp only [i1, i2, false_and, if_false]

/-- C17: calls of `drawTriangle` commute: for buffers of the screen's dimensions and
triangles `t1`, `t2` that are not degenerate, both orders of the two calls return, and
they return the same frame buffer and depth buffer. -/
theorem draw_calls_commute (b : Buffers α) (hb : b.WF) (t1 t2 : Triangle α)
    (h1 : nonDegenerate t1) (h2 : nonDegenerate t2) :
    ∃ b', drawTriangles b [t1, t2] = some b' ∧ drawTriangles b [t2, t1] = some b' := by
  obtain ⟨b1, e1, wf1, c1⟩ := drawTriangle_cells t1.1 t1.2.1 t1.2.2 b hb h1
  obtain ⟨b12, e12, wf12, c12⟩ := drawTriangle_cells t2.1 t2.2.1 t2.2.2 b1 wf1 h2
  obtain ⟨b2, e2, wf2, c2⟩ := drawTriangle_cells t2.1 t2.2.1 t2.2.2 b hb h2
  obtain ⟨b21, e21, wf21, c21⟩ := drawTriangle_cells t1.1 t1.2.1 t1.2.2 b2 wf2 h1
  have heq : b12 = b21 := by
    apply buffers_ext b12 b21 wf12 wf21
    intro k hk
    rw [c12 k hk, c1 k hk, c21 k hk, c2 k hk]
    exact newCell_comm _ _ _ _ _ _ k _
  refine ⟨b12, ?_, ?_⟩
  · rw [drawTriangles_cons, e1, Option.some_bind, drawTriangles_cons, e12]
    rfl
  · rw [drawTriangles_cons, e2, Option.some_bind, drawTriangles_cons, e21, heq]
    rfl

end Commute

/-- The first triangle of the front face and `slopedTriangle`, neither degenerate, drawn
in both orders into fresh buffers, return the same buffers. -/
theorem draw_calls_commute_witness :
    (freshBuffers : Buffers ℚ).WF ∧ nonDegenerate frontTriangle ∧
    nonDegenerate slopedTriangle ∧
    ∃ b', drawTriangles freshBuffers [frontTriangle, slopedTriangle] = some b' ∧
      drawTriangles freshBuffers [slopedTriangle, frontTriangle] = some b' :=
  ⟨freshBuffers_WF, by decide, by decide,
    draw_calls_commute freshBuffers freshBuffers_WF frontTriangle slopedTriangle
      (by decide) (by decide)⟩

/-- The claim C10 as stated fails in the arithmetic of the program: with the binary32
value of `fovScale`, about 1.0000013, the binary32 depths `depthA` and `depthB`, about
3.00000024 and 3.00000048, are positive and distinct, and line 108 gives both the scale
`4194309 / 1048576`, about 4.00000477. -/
theorem scales_coincide_in_binary32 :
    f32 fovScale32 = fovScale32 ∧ f32 depthA = depthA ∧ f32 depthB = depthB ∧
    0 < fovScale32 ∧ 0 < depthA ∧ depthA < depthB ∧
    projScale32 fovScale32 depthA = 4194309 / 1048576 ∧
    projScale32 fovScale32 depthB = 4194309 / 1048576 := by
  decide!

/-- The claim C12 as stated fails in the arithmetic of the program: at the pixel
`(x, y) = (41, 19)`, which passes the inside test of the first triangle of the front face
in both orders, lines 80-84 give the depth 5 for the order `p0, p1, p2` and
`5 + 2 ^ (-21)`, about 5.00000048, for the order `p0, p2, p1`, so that the two calls
leave different depth buffers. -/
theorem winding_changes_depth_in_binary32 :
    edgeInt frontTriangle.1 frontTriangle.2.1 frontTriangle.2.2 ≠ 0 ∧
    insideTest frontTriangle.1 frontTriangle.2.1 frontTriangle.2.2 41 19 ∧
    insideTest frontTriangle.1 frontTriangle.2.2 frontTriangle.2.1 41 19 ∧
    interpDepth32 frontTriangle.1 frontTriangle.2.1 frontTriangle.2.2 41 19 = 5 ∧
    interpDepth32 frontTriangle.1 frontTriangle.2.2 frontTriangle.2.1 41 19
      = 5 + 1 / 2097152 := by
  refine ⟨by decide, ?_, ?_, by decide!, by decide!⟩
  · rw [insideTest_iff]
    decide
  · rw [insideTest_iff]
    decide

/-- The claim C15 as stated fails in the arithmetic of the program.  At the pixel
`(x, y) = (38, 20)` of the second triangle of the front face, of `area` 45, the weights
of lines 80-82 are the binary32 numbers nearest to 3/5, 1/3 and 1/15, and their sum is
`1 + 5 / 2 ^ 27`, not 1.  And for `hugeTriangle` at the pixel `(0, -1)` the `float`
values of `w0`, `w1`, `w2` are 16785408, 0 and 1, of sum 16785409, while the `float`
value of `area` is 16785408. -/
theorem weights_sum_in_binary32 :
    (edgeInt frontTriangle2.1 frontTriangle2.2.1 frontTriangle2.2.2 = 45 ∧
      insideTest frontTriangle2.1 frontTriangle2.2.1 frontTriangle2.2.2 38 20 ∧
      weights32 frontTriangle2.1 frontTriangle2.2.1 frontTriangle2.2.2 38 20
        = (5033165 / 8388608, 11184811 / 33554432, 8947849 / 134217728) ∧
      (weights32 frontTriangle2.1 frontTriangle2.2.1 frontTriangle2.2.2 38 20).1
        + (weights32 frontTriangle2.1 frontTriangle2.2.1 frontTriangle2.2.2 38 20).2.1
        + (weights32 frontTriangle2.1 frontTriangle2.2.1 frontTriangle2.2.2 38 20).2.2
        = 1 + 5 / 134217728) ∧
    (edgeFunction32 hugeTriangle.2.1 hugeTriangle.2.2 (pixelPoint 0 (-1) : Point2D ℚ)
        = 16785408 ∧
      edgeFunction32 hugeTriangle.2.2 hugeTriangle.1 (pixelPoint 0 (-1) : Point2D ℚ) = 0 ∧
      edgeFunction32 hugeTriangle.1 hugeTriangle.2.1 (pixelPoint 0 (-1) : Point2D ℚ) = 1 ∧
      edgeInt hugeTriangle.1 hugeTriangle.2.1 hugeTriangle.2.2 = 16785409 ∧
      edgeFunction32 hugeTriangle.1 hugeTriangle.2.1 hugeTriangle.2.2 = 16785408) := by
  refine ⟨⟨by decide, ?_, by decide!, by decide!⟩, by decide!, by decide!, by decide!,
    by decide, by decide!⟩
  rw [insideTest_iff]
  decide

/-- The depth lines 80-84 store at the cell `(x, y) = (38, 20)` of the front face is
`5 + 2 ^ (-21)`, not the depth 5 of the vertices. -/
theorem front_depth_in_binary32 :
    interpDepth32 frontTriangle2.1 frontTriangle2.2.1 frontTriangle2.2.2 38 20
      = 5 + 1 / 2097152 := by
  decide!

end Cube
